import Mathlib

/-!
Verification development for the job-collection package (job state machine,
claim protocol, worker pool).  The definitions below are a shallow embedding
of the TypeScript sources:

* `src/shared.ts`   — `JobCollectionBase` and its `_DDPMethod_*` operations
* `src/server.ts`   — `JobCollectionServer` (promotion sweeper, stopped gate)
* `src/job/job-queue.ts` — the `JobQueue` worker pool

Modelling conventions:

* Times (`Date.valueOf()`) are `Int`; job ids and run ids are `Nat`.
* JS numbers used as counters (`retries`, `retried`, `repeats`, `repeated`)
  are `Int`, so that decrements below zero behave as in JS.
* Progress figures are exact rationals (`Rat`); JS floats are not modelled,
  the arithmetic involved (`100 * completed / total`) is exact for the
  integral inputs exercised here.
* The MongoDB store is a list of job documents; `updateWhere` mirrors
  `updateAsync(query, mods, {multi: true})` and returns the matched count.
  Single-document updates in the source all filter on `_id`; with unique
  ids (the situation for every store built by these operations) the two
  coincide.
* A thrown `check`/`Match` validation error is modelled as an `Option`
  result of `none` together with an unchanged store, since every `check`
  in the source runs before any store access.
* The external later.js schedule object is opaque to this package; a
  schedule value carries the answers the library would give
  (`saveNext` for `schedule.next(2, schedule.prev(1, after))[1]` used by
  `jobSave`, `doneNexts` for `schedule.next(2)` used by `jobDone`).
-/

namespace JobCollection

abbrev JobId := Nat
abbrev Time := Int

/-- The seven job statuses of `Job.jobStatuses`. -/
inductive JobStatus
  | waiting
  | paused
  | ready
  | running
  | failed
  | cancelled
  | completed
  deriving DecidableEq, Repr

/-- `Job.jobStatusCancellable`. -/
def jobStatusCancellable : List JobStatus := [.running, .ready, .waiting, .paused]

/-- `Job.jobStatusPausable`. -/
def jobStatusPausable : List JobStatus := [.ready, .waiting]

/-- `Job.jobStatusRemovable`. -/
def jobStatusRemovable : List JobStatus := [.cancelled, .completed, .failed]

/-- `Job.jobStatusRestartable`. -/
def jobStatusRestartable : List JobStatus := [.cancelled, .failed]

/-- `Job.forever` (2^53). -/
def forever : Int := 9007199254740992

/-- Retry backoff methods (`Job.jobRetryBackoffMethods`). -/
inductive RetryBackoff
  | constant
  | exponential
  deriving DecidableEq, Repr

/-- Log levels (`Job.jobLogLevels`). -/
inductive LogLevel
  | info
  | success
  | warning
  | danger
  deriving DecidableEq, Repr

/-- `repeatWait` is either a fixed delay or a later.js schedule.  The
schedule variant records the occurrence times the external later.js
library reports for its two uses in the source. -/
inductive RepeatWait
  | wait (w : Int)
  | schedule (saveNext : Option Time) (doneNexts : List Time)
  deriving DecidableEq, Repr

/-- A `progress` subdocument. -/
structure Progress where
  completed : Rat
  total : Rat
  percent : Rat
  deriving DecidableEq, Repr

/-- A failure record pushed by `jobFail` (`errorObj` with `runId` stamped). -/
structure Failure where
  value : String
  runId : Option JobId
  deriving DecidableEq, Repr

/-- A log entry as built by `_createLogEntry`. -/
structure LogEntry where
  time : Time
  runId : Option JobId
  level : LogLevel
  message : String
  deriving DecidableEq, Repr

/-- A persisted job document (the fields of `validJobDoc`).  Opaque
payloads (`data`, `result`) are modelled as strings. -/
structure JobDoc where
  _id : JobId
  type : String
  data : String
  status : JobStatus
  runId : Option JobId
  priority : Int
  depends : List JobId
  resolved : List JobId
  after : Time
  retries : Int
  retried : Int
  repeatRetries : Option Int
  retryUntil : Time
  retryWait : Int
  retryBackoff : RetryBackoff
  repeats : Int
  repeated : Int
  repeatUntil : Time
  repeatWait : RepeatWait
  workTimeout : Option Int
  expiresAfter : Option Time
  progress : Progress
  result : Option String
  failures : List Failure
  log : List LogEntry
  created : Time
  updated : Time
  deriving DecidableEq, Repr

/-- The persistent job store (a Mongo collection of job documents). -/
abbrev Store := List JobDoc

/-- `findOneAsync({_id: i})`. -/
def Store.lookup (s : Store) (i : JobId) : Option JobDoc :=
  s.find? (fun d => d._id == i)

/-- `updateAsync(query, mods, {multi: true})`: apply `f` to every document
matching `q` and return the new store with the matched count. -/
def updateWhere (q : JobDoc → Bool) (f : JobDoc → JobDoc) (s : Store) : Store × Nat :=
  (s.map (fun d => if q d then f d else d), (s.filter q).length)

/-- Fresh id allocation for `insertAsync` (any id not in use works; the
successor of the maximum id in use is chosen). -/
def freshId (s : Store) : JobId :=
  (s.map (fun d => d._id)).foldr max 0 + 1

/-- `insertAsync(doc)`: store the document under a fresh id and return it. -/
def insertDoc (s : Store) (d : JobDoc) : Store × JobId :=
  let i := freshId s
  (s ++ [{ d with _id := i }], i)

/-! ## Worker pool: claim sizing (`job-queue.ts`, `JobQueue._getWork`) -/

/-- The claim size computed by `JobQueue._getWork`:
`prefetch + payload * (concurrency - running()) - length()`. -/
def numJobsToGet (prefetch payload concurrency running queued : Int) : Int :=
  prefetch + payload * (concurrency - running) - queued

/-- Whether (and for how many jobs) `JobQueue._getWork` issues a `getWork`
call: suppressed when a claim is outstanding or the pool is paused, and
when the computed size is not positive; otherwise `maxJobs` is exactly the
computed size. -/
def getWorkRequest (getWorkOutstanding pausedQ : Bool)
    (prefetch payload concurrency running queued : Int) : Option Int :=
  if getWorkOutstanding || pausedQ then none
  else
    let n := numJobsToGet prefetch payload concurrency running queued
    if 0 < n then some n else none

/-! ## Worker pool: the once-only completion callback
(`job-queue.ts`, `JobQueue._only_once`) -/

/-- Observable outcome of one invocation of the wrapper built by
`_only_once`: whether `errorCallback` was invoked, whether a fatal error
was thrown, and whether the wrapped `fn` ended up being applied. -/
structure OnlyOnceResult where
  errorReported : Bool
  fatalThrown : Bool
  innerCalled : Bool
  deriving DecidableEq, Repr

/-- One invocation of the `_only_once` wrapper, given the pool's
`callbackStrict` flag and the closure state `called`; returns the outcome
and the new closure state.  A thrown fatal error aborts before
`fn.apply`. -/
def onlyOnceInvoke (callbackStrict called : Bool) : OnlyOnceResult × Bool :=
  if called then
    if callbackStrict then
      ({ errorReported := true, fatalThrown := true, innerCalled := false }, true)
    else
      ({ errorReported := true, fatalThrown := false, innerCalled := true }, true)
  else
    ({ errorReported := false, fatalThrown := false, innerCalled := true }, true)

/-! ## Log message templates (`_logMessage` in `shared.ts`) -/

/-- `_logMessage.readied`. -/
def logReadied (now : Time) : LogEntry := ⟨now, none, .info, "Promoted to ready"⟩

/-- `_logMessage.forced`. -/
def logForced (now : Time) : LogEntry := ⟨now, none, .warning, "Dependencies force resolved"⟩

/-- `_logMessage.rerun` (the `previousJob` data payload is not modelled). -/
def logRerun (now : Time) : LogEntry := ⟨now, none, .info, "Rerunning job"⟩

/-- `_logMessage.running`. -/
def logRunning (now : Time) (rid : JobId) : LogEntry := ⟨now, some rid, .info, "Job Running"⟩

/-- `_logMessage.paused`. -/
def logPaused (now : Time) : LogEntry := ⟨now, none, .info, "Job Paused"⟩

/-- `_logMessage.resumed`. -/
def logResumed (now : Time) : LogEntry := ⟨now, none, .info, "Job Resumed"⟩

/-- `_logMessage.cancelled`. -/
def logCancelled (now : Time) : LogEntry := ⟨now, none, .warning, "Job Cancelled"⟩

/-- `_logMessage.restarted`. -/
def logRestarted (now : Time) : LogEntry := ⟨now, none, .info, "Job Restarted"⟩

/-- `_logMessage.resubmitted`. -/
def logResubmitted (now : Time) : LogEntry := ⟨now, none, .info, "Job Resubmitted"⟩

/-- `_logMessage.submitted`. -/
def logSubmitted (now : Time) : LogEntry := ⟨now, none, .info, "Job Submitted"⟩

/-- `_logMessage.completed`. -/
def logCompleted (now : Time) (rid : JobId) : LogEntry := ⟨now, some rid, .success, "Job Completed"⟩

/-- `_logMessage.resolved` (the `dependency` data payload is not modelled). -/
def logResolved (now : Time) : LogEntry := ⟨now, none, .info, "Dependency resolved"⟩

/-- `_logMessage.failed`: message text depends on fatality and the error value. -/
def logFailed (now : Time) (rid : JobId) (fatal : Bool) (v : String) : LogEntry :=
  ⟨now, some rid, if fatal then .danger else .warning,
    "Job Failed with" ++ (if fatal then " Fatal" else "") ++ " Error" ++
      (if v == "" then "" else ": " ++ v) ++ "."⟩

/-! ## `_DDPMethod_jobReady`, `_DDPMethod_jobPause`, `_DDPMethod_jobResume` -/

/-- `_DDPMethod_jobReady(ids, {force, time})`: bulk-promote `waiting`
documents whose `after` has passed (and whose `depends` is empty, unless
forced, in which case `depends` is cleared). -/
def jobReady (ids : List JobId) (force : Bool) (time? : Option Time) (now : Time)
    (s : Store) : Store × Bool :=
  let t := time?.getD now
  let logs := (if force then [logForced now] else []) ++ [logReadied now]
  let u := updateWhere
    (fun d => d.status == JobStatus.waiting && decide (d.after ≤ t) &&
      (ids.isEmpty || ids.contains d._id) && (force || d.depends.isEmpty))
    (fun d => { d with
        status := .ready,
        updated := now,
        after := if ids.isEmpty then d.after else now,
        depends := if force then [] else d.depends,
        log := d.log ++ logs }) s
  (u.1, decide (0 < u.2))

/-- `_DDPMethod_jobPause(ids)`: `{ready, waiting} → paused`. -/
def jobPause (ids : List JobId) (now : Time) (s : Store) : Store × Bool :=
  if ids.isEmpty then (s, false)
  else
    let u := updateWhere
      (fun d => ids.contains d._id && jobStatusPausable.contains d.status)
      (fun d => { d with status := .paused, updated := now, log := d.log ++ [logPaused now] }) s
    (u.1, decide (0 < u.2))

/-- `_DDPMethod_jobResume(ids)`: `paused → waiting` (excluding documents
whose `updated` equals the current time), then attempt promotion. -/
def jobResume (ids : List JobId) (now : Time) (s : Store) : Store × Bool :=
  if ids.isEmpty then (s, false)
  else
    let u := updateWhere
      (fun d => ids.contains d._id && d.status == JobStatus.paused && d.updated != now)
      (fun d => { d with status := .waiting, updated := now, log := d.log ++ [logResumed now] }) s
    if 0 < u.2 then ((jobReady ids false none now u.1).1, true) else (u.1, false)

/-! ## The claim protocol (`_DDPMethod_getWork`) -/

/-- The filter of getWork's conditional multi-update: documents among the
found ids that are still `ready` and unclaimed. -/
def claimQuery (ids : List JobId) (d : JobDoc) : Bool :=
  ids.contains d._id && d.status == JobStatus.ready && d.runId == none

/-- The mutation of getWork's conditional multi-update: mark running, stamp
the shared run id, decrement `retries`, increment `retried`, and set or
unset the work timeout / expiry. -/
def claimMods (rid : JobId) (wt : Option Int) (now : Time) (d : JobDoc) : JobDoc :=
  { d with
    status := .running,
    runId := some rid,
    updated := now,
    retries := d.retries - 1,
    retried := d.retried + 1,
    log := d.log ++ [logRunning now rid],
    workTimeout := wt,
    expiresAfter := wt.map (fun w => now + w) }

/-- getWork's compare-and-swap: one `updateAsync` over the found ids. -/
def claimUpdate (ids : List JobId) (rid : JobId) (wt : Option Int) (now : Time)
    (s : Store) : Store × Nat :=
  updateWhere (claimQuery ids) (claimMods rid wt now) s

/-- The ids of the documents a `claimUpdate` actually updates (the
update's matched set; the documents the subsequent re-read returns). -/
def claimMatched (ids : List JobId) (s : Store) : List JobId :=
  (s.filter (claimQuery ids)).map (fun d => d._id)

/-- The `ready`, unclaimed documents of the requested types, in claim
order (`priority`, then `retryUntil`, then `after`, ascending). -/
def findReady (types : List String) (s : Store) : List JobDoc :=
  (s.filter
    (fun d => types.contains d.type && d.status == JobStatus.ready && d.runId == none)).mergeSort
    (fun a b =>
      if a.priority == b.priority then
        if a.retryUntil == b.retryUntil then a.after ≤ b.after else a.retryUntil ≤ b.retryUntil
      else a.priority ≤ b.priority)

/-- The claim loop of `_DDPMethod_getWork`: find up to the still-needed
count of ready, unclaimed jobs, CAS-claim them, re-read those actually
claimed, and repeat until the request is filled or no candidates remain.
The loop body claims every found id (there is no interleaving inside one
call), so each iteration either breaks or grows the result; `fuel`
(initially `maxJobs`) therefore never runs out.  -/
def getWorkLoop (types : List String) (rid : JobId) (wt : Option Int) (now : Time)
    (maxJobs : Nat) : Nat → Store → List JobDoc → Store × List JobDoc
  | 0, s, docs => (s, docs)
  | fuel + 1, s, docs =>
    if docs.length < maxJobs then
      let ids := ((findReady types s).take (maxJobs - docs.length)).map (fun d => d._id)
      if ids.isEmpty then (s, docs)
      else
        let u := claimUpdate ids rid wt now s
        if 0 < u.2 then
          let foundDocs := u.1.filter (fun d => ids.contains d._id && d.runId == some rid)
          getWorkLoop types rid wt now maxJobs fuel u.1 (docs ++ foundDocs)
        else
          getWorkLoop types rid wt now maxJobs fuel u.1 docs
    else (s, docs)

/-- `_DDPMethod_getWork(type, {maxJobs, workTimeout})` (shared.ts),
executed without interleaving: `rid` is the freshly generated run id. -/
def getWork (types : List String) (maxJobs : Nat) (rid : JobId) (wt : Option Int)
    (now : Time) (s : Store) : Store × List JobDoc :=
  getWorkLoop types rid wt now maxJobs maxJobs s []

/-! ## Server-side state (`server.ts`) -/

/-- `JobCollectionServer.stopped` starts `true` (constructor). -/
def serverInitialStopped : Bool := true

/-- `_DDPMethod_startJobServer` clears the stopped flag. -/
def startJobServer (_stopped : Bool) : Bool := false

/-- `_DDPMethod_shutdownJobServer` stores the (truthy) timer handle in
`stopped`; as a gate for `getWork` this is `true`.  (The delayed failing
of still-running jobs fires only after the shutdown timeout.) -/
def shutdownJobServer (_stopped : Bool) : Bool := true

/-- The server override of `_DDPMethod_getWork`: returns `[]` without
touching the store while the server is stopped. -/
def serverGetWork (stopped : Bool) (types : List String) (maxJobs : Nat) (rid : JobId)
    (wt : Option Int) (now : Time) (s : Store) : Store × List JobDoc :=
  if stopped then (s, [])
  else getWork types maxJobs rid wt now s

/-! ## Concurrent claim traces (for the at-most-one-claimant property) -/

/-- One interleaved claim event: some getWork call (session) with run id
`rid` executes its conditional multi-update against the id set its
earlier (possibly stale) find returned. -/
structure ClaimEv where
  rid : JobId
  ids : List JobId
  wt : Option Int
  now : Time

/-- Execute a sequence of interleaved claim events against the store,
collecting every claimed job id in order. -/
def runClaims : List ClaimEv → Store → Store × List JobId
  | [], s => (s, [])
  | ev :: evs, s =>
    let s' := (claimUpdate ev.ids ev.rid ev.wt ev.now s).1
    let rest := runClaims evs s'
    (rest.1, claimMatched ev.ids s ++ rest.2)

/-- The ids of `ready`, unclaimed documents (the jobs available for
claiming). -/
def readyUnclaimed (s : Store) : List JobId :=
  (s.filter (fun d => d.status == JobStatus.ready && d.runId == none)).map (fun d => d._id)

/-! ## `_DDPMethod_jobRemove` and `_DDPMethod_jobProgress` -/

/-- `_DDPMethod_jobRemove(ids)`: `removeAsync` every document among `ids`
whose status is removable (`cancelled`, `completed`, `failed`); report
whether any document was removed. -/
def jobRemove (ids : List JobId) (s : Store) : Store × Bool :=
  if ids.isEmpty then (s, false)
  else
    let q := fun d => ids.contains d._id && jobStatusRemovable.contains d.status
    let num := (s.filter q).length
    (s.filter (fun d => !(q d)), decide (0 < num))

/-- `_DDPMethod_jobProgress(id, runId, completed, total)`: validate the
arguments (`completed ≥ 0`, `total > 0`, `total ≥ completed`,
`0 ≤ percent ≤ 100`; a violation throws before any store access, modelled
as `none` with the store unchanged), then update the single document
matching `{_id, runId, status: running}` with the new progress, refreshing
`expiresAfter` when the document has a `workTimeout`. -/
def jobProgress (id rid : JobId) (completed total : Rat) (now : Time) (s : Store) :
    Store × Option Bool :=
  if 0 ≤ completed then
    if 0 < total then
      let percent := 100 * completed / total
      if completed ≤ total ∧ 0 ≤ percent ∧ percent ≤ 100 then
        let wt := match s.lookup id with
          | some j => j.workTimeout
          | none => none
        let (s', num) := updateWhere
          (fun d => d._id == id && d.runId == some rid && d.status == JobStatus.running)
          (fun d => { d with
              progress := ⟨completed, total, percent⟩,
              updated := now,
              expiresAfter := match wt with
                | some w => some (now + w)
                | none => d.expiresAfter }) s
        (s', some (decide (num = 1)))
      else (s, none)
    else (s, none)
  else (s, none)

/-! ## `_idsOfDeps`, `_DDPMethod_jobCancel`, `_DDPMethod_jobFail` -/

/-- `_idsOfDeps(ids, antecedents, dependents, statuses)`: the ids of the
dependency-closure step used by cascading cancel/restart — dependents are
documents whose `depends` intersects `ids`, antecedents are the ids
appearing in the `depends` of documents among `ids`; both filtered to the
supplied status list, deduplicated in store order. -/
def idsOfDeps (s : Store) (ids : List JobId) (antecedents dependents : Bool)
    (statuses : List JobStatus) : List JobId :=
  let antsArray : List JobId :=
    if antecedents then
      (s.filter (fun d => ids.contains d._id)).foldl
        (fun acc d => d.depends.foldl
          (fun a i => if a.contains i then a else a ++ [i]) acc) []
    else []
  let cond := fun d =>
    statuses.contains d.status &&
      ((dependents && d.depends.any (fun i => ids.contains i)) ||
        (antecedents && antsArray.contains d._id))
  (s.filter cond).foldl
    (fun acc d => if acc.contains d._id then acc else acc ++ [d._id]) []

/-- The mutation of `jobCancel`: `cancelled`, clear `runId`, reset
progress. -/
def cancelMods (now : Time) (d : JobDoc) : JobDoc :=
  { d with
    status := .cancelled,
    runId := none,
    progress := ⟨0, 1, 0⟩,
    updated := now,
    log := d.log ++ [logCancelled now] }

/-- `_DDPMethod_jobCancel(ids, {antecedents, dependents})`: cancel every
id currently in a cancellable status, then recursively cancel the
antecedent/dependent closure.  The recursion is bounded by `fuel`: every
recursive call receives only ids that are cancellable at call time and
cancels them all, so the number of cancellable documents strictly
decreases and a fuel of the store size plus one always suffices (the
source recursion terminates for the same reason). -/
def jobCancel (fuel : Nat) (ids : List JobId) (antecedents dependents : Bool)
    (now : Time) (s : Store) : Store × Bool :=
  match fuel with
  | 0 => (s, false)
  | fuel + 1 =>
    if ids.isEmpty then (s, false)
    else
      let u := updateWhere
        (fun d => ids.contains d._id && jobStatusCancellable.contains d.status)
        (cancelMods now) s
      let cancelIds := idsOfDeps u.1 ids antecedents dependents jobStatusCancellable
      let r :=
        if cancelIds.isEmpty then (u.1, false)
        else jobCancel fuel cancelIds antecedents dependents now u.1
      (r.1, decide (0 < u.2) || r.2)

/-- The retry time computed by `jobFail`: `now + retryWait` under
constant backoff, `now + retryWait * 2 ^ (retried - 1)` under
exponential backoff.  (`retried ≥ 1` whenever a running job fails, since
claiming increments `retried`; the `Nat` truncation of the exponent only
differs from JS `Math.pow` for the unreachable `retried = 0`.) -/
def failRetryTime (now : Time) (d : JobDoc) : Time :=
  if d.retryBackoff == RetryBackoff.exponential then
    now + d.retryWait * 2 ^ (d.retried - 1).toNat
  else now + d.retryWait

/-- The mutation of `jobFail`: new status, cleared `runId`, retry time,
appended failure record and log entry. -/
def failMods (newStatus : JobStatus) (after : Time) (rid : JobId) (err : String)
    (now : Time) (d : JobDoc) : JobDoc :=
  { d with
    status := newStatus,
    runId := none,
    after := after,
    updated := now,
    failures := d.failures ++ [⟨err, some rid⟩],
    log := d.log ++ [logFailed now rid (newStatus == JobStatus.failed) err] }

/-- `_DDPMethod_jobFail(id, runId, err, {fatal})`: fail the running
document matching `{_id, runId, status: running}` — back to `waiting`
when the failure is not fatal, retries remain and the retry deadline
allows, else terminally `failed` —, append a failure record, and on a
terminal failure cancel every dependent job. -/
def jobFail (fuel : Nat) (id rid : JobId) (err : String) (fatal : Bool) (now : Time)
    (s : Store) : Store × Bool :=
  match s.find? (fun d => d._id == id && d.runId == some rid &&
      d.status == JobStatus.running) with
  | none => (s, false)
  | some doc =>
    let after := failRetryTime now doc
    let newStatus :=
      if !fatal && decide (0 < doc.retries) && decide (after ≤ doc.retryUntil) then
        JobStatus.waiting
      else JobStatus.failed
    let u := updateWhere
      (fun d => d._id == id && d.runId == some rid && d.status == JobStatus.running)
      (failMods newStatus after rid err now) s
    let s'' :=
      if newStatus = JobStatus.failed ∧ u.2 = 1 then
        (u.1.filter (fun d => d.depends.contains id)).foldl
          (fun st x => (jobCancel fuel [x._id] false true now st).1) u.1
      else u.1
    (s'', decide (u.2 = 1))

/-! ## `_rerun_job` and `_DDPMethod_jobDone` -/

/-- `_rerun_job(doc, repeats, wait, repeatUntil)`: clone the document as
a fresh `waiting` job (dropping result, failures, expiry and run
fields), reset retry state from `repeatRetries`, bump `repeated`,
compute `after` (`now + wait` for a numeric wait, `now` for a schedule),
insert it under a fresh id and attempt promotion. -/
def rerunJob (doc : JobDoc) (repeats : Int) (wait : RepeatWait) (repeatUntil : Time)
    (now : Time) (s : Store) : Store × JobId :=
  let repeatRetries := doc.repeatRetries.getD (doc.retries + doc.retried)
  let newDoc : JobDoc := { doc with
    runId := none,
    status := .waiting,
    repeatRetries := some repeatRetries,
    retries := min repeatRetries forever,
    retryUntil := repeatUntil,
    retried := 0,
    repeats := min repeats forever,
    repeatUntil := repeatUntil,
    repeated := doc.repeated + 1,
    updated := now,
    created := now,
    progress := ⟨0, 1, 0⟩,
    log := [logRerun now],
    result := none,
    expiresAfter := none,
    workTimeout := none,
    failures := [],
    after := match wait with
      | .wait w => now + w
      | .schedule _ _ => now }
  let r := insertDoc s newDoc
  ((jobReady [r.2] false none now r.1).1, r.2)

/-- The dependency-resolution step of `jobDone`: pull `id` from the
`depends` of every dependent job, push it onto `resolved` (optionally
raising `after` by `delayDeps`), and attempt to promote them. -/
def resolveDeps (id : JobId) (delayDeps : Option Int) (now : Time) (s1 : Store) : Store :=
  let ids := (s1.filter (fun d => d.depends.contains id)).map (fun d => d._id)
  if ids.isEmpty then s1
  else
    let v := updateWhere (fun d => ids.contains d._id)
      (fun d => { d with
          depends := d.depends.filter (fun k => !(k == id)),
          resolved := d.resolved ++ [id],
          after := match delayDeps with
            | some w => max d.after (now + w)
            | none => d.after,
          log := d.log ++ [logResolved now] }) s1
    (jobReady ids false none now v.1).1

/-- `_DDPMethod_jobDone(id, runId, result, {repeatId, delayDeps})`: mark
the matching running document `completed` with full progress; if
`repeats > 0` compute and insert the next recurrence (fixed delay: only
when `repeatUntil - repeatWait ≥ now`; schedule: the next occurrence,
skipping one within 500 time-units of now in favor of the following one
when there is one, only when it still falls inside `repeatUntil`); then
resolve every dependent job (pull the id out of `depends`, push it onto
`resolved`, optionally raise `after` by `delayDeps`) and attempt to
promote them.  Returns the new store, the inserted recurrence id (if
any) and the success flag (the source returns the recurrence id in place
of `true` when `repeatId` is set). -/
def jobDone (id rid : JobId) (result : String) (delayDeps : Option Int)
    (now : Time) (s : Store) : Store × Option JobId × Bool :=
  match s.find? (fun d => d._id == id && d.runId == some rid &&
      d.status == JobStatus.running) with
  | none => (s, none, false)
  | some doc =>
    let u := updateWhere
      (fun d => d._id == id && d.runId == some rid && d.status == JobStatus.running)
      (fun d => { d with
          status := .completed,
          result := some result,
          progress := ⟨if doc.progress.total == 0 then 1 else doc.progress.total,
            if doc.progress.total == 0 then 1 else doc.progress.total, 100⟩,
          updated := now,
          log := d.log ++ [logCompleted now rid] }) s
    if u.2 = 1 then
      let rr : Store × Option JobId :=
        if 0 < doc.repeats then
          match doc.repeatWait with
          | .wait w =>
            if now ≤ doc.repeatUntil - w then
              let r := rerunJob doc (doc.repeats - 1) (.wait w) doc.repeatUntil now u.1
              (r.1, some r.2)
            else (u.1, none)
          | .schedule _ nexts =>
            match nexts with
            | [] => (u.1, none)
            | d0 :: rest =>
              let dch := if d0 - now ≤ 500 ∧ ¬rest.isEmpty then rest.headD d0 else d0
              if now ≤ doc.repeatUntil - (dch - now) then
                let r := rerunJob doc (doc.repeats - 1) (.wait (dch - now))
                  doc.repeatUntil now u.1
                (r.1, some r.2)
              else (u.1, none)
        else (u.1, none)
      (resolveDeps id delayDeps now rr.1, rr.2, true)
    else (u.1, none, false)

/-! ## The promotion sweeper (`server.ts`, `_promote_jobs`) -/

/-- The timeout-specific failure message used by the sweeper. -/
def workTimeoutMsg : String := "Failed for exceeding worker set workTimeout"

/-- Phase (a) of `_promote_jobs`: fetch the running documents whose
`expiresAfter` has passed and fail each one (`Job.fail` invokes `jobFail`
with the timeout message, non-fatal, using the document's `runId`; a
running document always carries one). -/
def failExpired (fuel : Nat) (now : Time) (s : Store) : Store :=
  (s.filter (fun d => d.status == JobStatus.running &&
      match d.expiresAfter with
      | some e => decide (e < now)
      | none => false)).foldl
    (fun st z => (jobFail fuel z._id (z.runId.getD 0) workTimeoutMsg false now st).1) s

/-- `_promote_jobs`: a no-op while stopped; otherwise fail the expired
running jobs, then run a bulk `jobReady` with no id filter. -/
def promoteJobs (stopped : Bool) (fuel : Nat) (now : Time) (s : Store) : Store :=
  if stopped then s
  else (jobReady [] false none now (failExpired fuel now s)).1

/-! ## Concrete sample documents (for evaluating the operations) -/

/-- A job document with the builder's defaults (`new Job(...)` in
`job-class.ts`, with time zero), at a chosen id, status and run id. -/
def mkDoc (i : JobId) (st : JobStatus) (rid : Option JobId) : JobDoc :=
  { _id := i
    type := "work"
    data := ""
    status := st
    runId := rid
    priority := 0
    depends := []
    resolved := []
    after := 0
    retries := 1
    retried := 0
    repeatRetries := none
    retryUntil := 0
    retryWait := 300000
    retryBackoff := .constant
    repeats := 0
    repeated := 0
    repeatUntil := 0
    repeatWait := .wait 300000
    workTimeout := none
    expiresAfter := none
    progress := ⟨0, 1, 0⟩
    result := none
    failures := []
    log := []
    created := 0
    updated := 0 }

/-- A concrete repeating running job (for evaluating `jobDone`). -/
def repeatDocW : JobDoc :=
  { mkDoc 1 .running (some 7) with
    repeats := 2
    repeatWait := .wait 10
    repeatUntil := 100 }

/-! ## `_DDPMethod_jobLog`, `_checkDeps`, `_DDPMethod_jobSave`,
`_DDPMethod_jobRestart` -/

/-- `_DDPMethod_jobLog(id, runId, message, {level})`: push a log entry
onto the document, refresh `updated`, and refresh `expiresAfter` when the
document is `running` with a `workTimeout`; report whether exactly one
document matched. -/
def jobLog (id : JobId) (rid : Option JobId) (message : String) (level : LogLevel)
    (now : Time) (s : Store) : Store × Bool :=
  let logObj : LogEntry := ⟨now, rid, level, message⟩
  let job := s.lookup id
  let u := updateWhere (fun d => d._id == id)
    (fun d => { d with
        log := d.log ++ [logObj],
        updated := now,
        expiresAfter := match job with
          | some j =>
            match j.workTimeout with
            | some w => if j.status == JobStatus.running then some (now + w)
              else d.expiresAfter
            | none => d.expiresAfter
          | none => d.expiresAfter }) s
  (u.1, decide (u.2 = 1))

/-- `_checkDeps(job, false)` (the non-dry-run form used by `jobSave`):
with no antecedents the job passes; otherwise fetch the antecedent
documents, log a message per missing antecedent, log a message per
`failed`/`cancelled` antecedent, pull the `completed` antecedents out of
the job's `depends` into `resolved` (one `resolved` log entry each; the
entry's data payload is not modelled), and — when an antecedent was
missing, `failed` or `cancelled` — cancel the job (with the default
cascade options) and report `false`. -/
def checkDeps (fuel : Nat) (job : JobDoc) (now : Time) (s : Store) : Store × Bool :=
  if job.depends.isEmpty then (s, true)
  else
    let deps := s.filter (fun d => job.depends.contains d._id)
    let foundIds := deps.map (fun d => d._id)
    let s1 :=
      if deps.length ≠ job.depends.length then
        (job.depends.filter (fun j => !(foundIds.contains j))).foldl
          (fun st j => (jobLog job._id none
            ("Antecedent job " ++ toString j ++ " missing at save")
            LogLevel.info now st).1) s
      else s
    let resolved := (deps.filter (fun d => d.status == JobStatus.completed)).map
      (fun d => d._id)
    let s2 := deps.foldl (fun st dp =>
      if dp.status == JobStatus.failed then
        (jobLog job._id none "Antecedent job failed before save" LogLevel.info now st).1
      else if dp.status == JobStatus.cancelled then
        (jobLog job._id none "Antecedent job cancelled before save" LogLevel.info now st).1
      else st) s1
    let cancel := decide (deps.length ≠ job.depends.length) ||
      deps.any (fun d => d.status == JobStatus.failed) ||
      deps.any (fun d => d.status == JobStatus.cancelled)
    let s3 :=
      if !resolved.isEmpty then
        (updateWhere (fun d => d._id == job._id && d.status == JobStatus.waiting)
          (fun d => { d with
              depends := d.depends.filter (fun k => !(resolved.contains k)),
              resolved := d.resolved ++ resolved,
              log := d.log ++ resolved.map (fun _ => logResolved now) }) s2).1
      else s2
    let s4 := if cancel then (jobCancel fuel [job._id] false true now s3).1 else s3
    (s4, !cancel)

/-- `_DDPMethod_jobSave(doc, {cancelRepeats})`: only `waiting`/`paused`
documents may be saved; clamp `repeats`/`retries` to `forever` and the
`after`/`retryUntil`/`repeatUntil` times to now; for a later.js
`repeatWait` resolve the next occurrence (oracle field `saveNext` of the
schedule: `null`, or an occurrence past `repeatUntil`, aborts the save;
otherwise it becomes `after`).  With an id (`hasId`): update the matching
document, which must be `paused` with no `runId`, back to `waiting` with
the new parameters, then run the dependency check and attempt promotion.
Without an id: optionally cancel all cancellable documents of the same
type (`cancelRepeats` on an infinitely repeating job), insert the
document (stamping `created` and a `submitted` log entry), then run the
dependency check and attempt promotion.  Returns the saved id, or `none`
when the save was rejected or the dependency check cancelled the job. -/
def jobSave (fuel : Nat) (doc0 : JobDoc) (hasId : Bool) (cancelRepeats : Bool)
    (now : Time) (s : Store) : Store × Option JobId :=
  if !(doc0.status == JobStatus.waiting || doc0.status == JobStatus.paused) then (s, none)
  else
    let doc1 := { doc0 with
      repeats := min doc0.repeats forever,
      retries := min doc0.retries forever,
      after := max doc0.after now,
      retryUntil := max doc0.retryUntil now,
      repeatUntil := max doc0.repeatUntil now }
    let sched : Option JobDoc :=
      match doc1.repeatWait with
      | .wait _ => some doc1
      | .schedule saveNext _ =>
        match saveNext with
        | none => none
        | some nxt =>
          if doc1.repeatUntil < nxt then none else some { doc1 with after := nxt }
    match sched with
    | none => (s, none)
    | some doc2 =>
      if hasId then
        let u := updateWhere
          (fun d => d._id == doc2._id && d.status == JobStatus.paused && d.runId == none)
          (fun d => { d with
              status := .waiting,
              data := doc2.data,
              retries := doc2.retries,
              repeatRetries := some (doc2.repeatRetries.getD (doc2.retries + doc2.retried)),
              retryUntil := doc2.retryUntil,
              retryWait := doc2.retryWait,
              retryBackoff := doc2.retryBackoff,
              repeats := doc2.repeats,
              repeatUntil := doc2.repeatUntil,
              repeatWait := doc2.repeatWait,
              depends := doc2.depends,
              priority := doc2.priority,
              after := doc2.after,
              updated := now,
              log := d.log ++ [logResubmitted now] }) s
        if 0 < u.2 then
          let c := checkDeps fuel doc2 now u.1
          if c.2 then ((jobReady [doc2._id] false none now c.1).1, some doc2._id)
          else (c.1, none)
        else (u.1, none)
      else
        let s1 :=
          if doc2.repeats == forever && cancelRepeats then
            (s.filter (fun d => d.type == doc2.type &&
                jobStatusCancellable.contains d.status)).foldl
              (fun st x => (jobCancel fuel [x._id] false true now st).1) s
          else s
        let r := insertDoc s1
          { doc2 with created := now, log := doc2.log ++ [logSubmitted now] }
        let newDoc := { doc2 with
          _id := r.2, created := now, log := doc2.log ++ [logSubmitted now] }
        let c := checkDeps fuel newDoc now r.1
        if c.2 then ((jobReady [r.2] false none now c.1).1, some r.2)
        else (c.1, none)

/-- `_DDPMethod_jobRestart(ids, {retries, until, antecedents,
dependents})`: move every restartable (`cancelled`/`failed`) document
among `ids` back to `waiting` with reset progress, `retries` incremented
by the (clamped) option and `retryUntil` overridden when `until` is
given; recursively restart the antecedent/dependent closure; when
anything was restarted, attempt to promote the original ids.  The
recursion is bounded by `fuel` exactly as in `jobCancel`. -/
def jobRestart (fuel : Nat) (ids : List JobId) (retries : Int) (untilT : Option Time)
    (antecedents dependents : Bool) (now : Time) (s : Store) : Store × Bool :=
  match fuel with
  | 0 => (s, false)
  | fuel + 1 =>
    if ids.isEmpty then (s, false)
    else
      let u := updateWhere
        (fun d => ids.contains d._id && jobStatusRestartable.contains d.status)
        (fun d => { d with
            status := .waiting,
            progress := ⟨0, 1, 0⟩,
            updated := now,
            retries := d.retries + min retries forever,
            retryUntil := untilT.getD d.retryUntil,
            log := d.log ++ [logRestarted now] }) s
      let restartIds := idsOfDeps u.1 ids antecedents dependents jobStatusRestartable
      let r :=
        if restartIds.isEmpty then (u.1, false)
        else jobRestart fuel restartIds retries untilT antecedents dependents now u.1
      if decide (0 < u.2) || r.2 then ((jobReady ids false none now r.1).1, true)
      else (r.1, false)

/-! ## State-machine operation sequences (for the `runId` invariant) -/

/-- One state-machine operation, carrying the arguments of its DDP call
(including the wall-clock time of the call). -/
inductive Op
  | save (doc : JobDoc) (hasId cancelRepeats : Bool) (now : Time)
  | getwork (types : List String) (maxJobs : Nat) (rid : JobId) (wt : Option Int) (now : Time)
  | done (id rid : JobId) (result : String) (delayDeps : Option Int) (now : Time)
  | fail (id rid : JobId) (err : String) (fatal : Bool) (now : Time)
  | cancel (ids : List JobId) (antecedents dependents : Bool) (now : Time)
  | restart (ids : List JobId) (retries : Int) (untilT : Option Time)
      (antecedents dependents : Bool) (now : Time)
  | pause (ids : List JobId) (now : Time)
  | resume (ids : List JobId) (now : Time)
  | ready (ids : List JobId) (force : Bool) (time? : Option Time) (now : Time)
  deriving DecidableEq

/-- The store transformation of one operation.  The cascading operations
receive recursion fuel `store size + 1` (which, as argued at `jobCancel`,
they never exhaust; every invariant theorem below holds for any fuel). -/
def Op.apply (s : Store) : Op → Store
  | .save doc hasId cr now => (jobSave (s.length + 1) doc hasId cr now s).1
  | .getwork types maxJobs rid wt now => (getWork types maxJobs rid wt now s).1
  | .done id rid result dd now => (jobDone id rid result dd now s).1
  | .fail id rid err fatal now => (jobFail (s.length + 1) id rid err fatal now s).1
  | .cancel ids a dp now => (jobCancel (s.length + 1) ids a dp now s).1
  | .restart ids r u a dp now => (jobRestart (s.length + 1) ids r u a dp now s).1
  | .pause ids now => (jobPause ids now s).1
  | .resume ids now => (jobResume ids now s).1
  | .ready ids f t now => (jobReady ids f t now s).1

/-- Run a sequence of operations against a store. -/
def applyOps (ops : List Op) (s : Store) : Store :=
  ops.foldl Op.apply s

/-- Whether an operation's `save` payload carries a null `runId` (the
`Job` builder always submits `runId: null`; non-save operations carry no
document). -/
def Op.savesClean : Op → Bool
  | .save doc _ _ _ => doc.runId == none
  | _ => true

/-- The per-document form of the (corrected) run-id/status relation:
`runId` is non-null exactly on `running` and `completed` documents. -/
def docInv (d : JobDoc) : Prop :=
  d.runId ≠ none ↔ (d.status = JobStatus.running ∨ d.status = JobStatus.completed)

/-- The store-wide run-id/status invariant. -/
def runIdStatusInv (s : Store) : Prop :=
  ∀ d ∈ s, docInv d

/-! ## A concrete reachable trace (save, getWork, jobDone) -/

/-- The store contents after saving a default job at time 0 (inserted
under id 1 and immediately promoted, since its `after` is due). -/
def traceDoc1 : JobDoc :=
  { mkDoc 1 .ready none with log := [logSubmitted 0, logReadied 0] }

/-- The store contents after a `getWork` claim with run id 7. -/
def traceDoc2 : JobDoc :=
  { mkDoc 1 .running (some 7) with
    retries := 0,
    retried := 1,
    log := [logSubmitted 0, logReadied 0, logRunning 0 7] }

/-- The store contents after `jobDone`: completed, with the run id still
in place. -/
def traceDoc3 : JobDoc :=
  { mkDoc 1 .completed (some 7) with
    retries := 0,
    retried := 1,
    result := some "ok",
    progress := ⟨1, 1, 100⟩,
    log := [logSubmitted 0, logReadied 0, logRunning 0 7, logCompleted 0 7] }

end JobCollection

namespace JobCollection

/-- C7: for every worker-pool claim cycle the number of jobs requested
from `getWork` equals `prefetch + payload * (concurrency - activeTasks) -
queuedJobs`, and no call is issued when that quantity is ≤ 0, when the
pool is paused, or when a previous claim is still outstanding. -/
theorem claim_sizing_correct (o p : Bool) (prefetch payload concurrency running queued : Int) :
    (getWorkRequest o p prefetch payload concurrency running queued =
        some (prefetch + payload * (concurrency - running) - queued) ↔
      (o = false ∧ p = false ∧ 0 < prefetch + payload * (concurrency - running) - queued)) ∧
    (getWorkRequest o p prefetch payload concurrency running queued = none ↔
      (o = true ∨ p = true ∨ prefetch + payload * (concurrency - running) - queued ≤ 0)) ∧
    (∀ n, getWorkRequest o p prefetch payload concurrency running queued = some n →
      n = prefetch + payload * (concurrency - running) - queued) := by
  cases o <;> cases p <;>
    simp only [getWorkRequest, numJobsToGet, Bool.false_or, Bool.or_self, Bool.true_or,
      Bool.or_true, if_true, if_false, Bool.false_eq_true, Bool.true_eq_false] <;>
    refine ⟨?_, ?_, ?_⟩ <;> (try split) <;> simp_all

/-- `contains` agrees with membership (lawful `BEq`). -/
theorem contains_iff_mem {α : Type} [BEq α] [LawfulBEq α] {l : List α} {a : α} :
    l.contains a = true ↔ a ∈ l := by
  simp [List.contains, List.elem_iff]

/-- A lookup in an updated store rewrites pointwise, provided the
mutation keeps document ids. -/
theorem lookup_updateWhere (q : JobDoc → Bool) (f : JobDoc → JobDoc) (s : Store) (i : JobId)
    (hf : ∀ x, (f x)._id = x._id) :
    Store.lookup (updateWhere q f s).1 i =
      (Store.lookup s i).map (fun d => if q d then f d else d) := by
  simp only [Store.lookup, updateWhere, List.find?_map]
  have hpred : ((fun x : JobDoc => x._id == i) ∘ (fun d => if q d then f d else d)) =
      (fun d : JobDoc => d._id == i) := by
    funext d
    by_cases hq : q d = true <;> simp [hq, hf]
  rw [hpred]

/-- With unique ids, a member document is what its id looks up to. -/
theorem lookup_eq_of_mem {s : Store} {d : JobDoc}
    (hN : (s.map (fun x => x._id)).Nodup) (hd : d ∈ s) :
    Store.lookup s d._id = some d := by
  induction s with
  | nil => cases hd
  | cons a as ih =>
    rw [List.map_cons, List.nodup_cons] at hN
    rcases List.mem_cons.1 hd with rfl | hd'
    · simp [Store.lookup]
    · show List.find? _ (a :: as) = some d
      rw [List.find?_cons_of_neg]
      · exact ih hN.2 hd'
      · simp only [beq_iff_eq]
        intro he
        exact hN.1 (he ▸ List.mem_map_of_mem _ hd')

/-- With unique ids, a filter whose predicate pins the id selects exactly
one matching member document. -/
theorem filter_by_id_eq {q : JobDoc → Bool} {s : Store} {d : JobDoc}
    (hN : (s.map (fun x => x._id)).Nodup) (hd : d ∈ s) (hqd : q d = true)
    (hqid : ∀ x ∈ s, q x = true → x._id = d._id) :
    s.filter q = [d] := by
  induction s with
  | nil => cases hd
  | cons a as ih =>
    rw [List.map_cons, List.nodup_cons] at hN
    rcases List.mem_cons.1 hd with rfl | hd'
    · rw [List.filter_cons_of_pos hqd]
      have : as.filter q = [] := by
        rw [List.filter_eq_nil_iff]
        intro x hx hqx
        exact hN.1 ((hqid x (List.mem_cons_of_mem _ hx) hqx) ▸ List.mem_map_of_mem _ hx)
      rw [this]
    · rw [List.filter_cons_of_neg]
      · exact ih hN.2 hd' (fun x hx hqx => hqid x (List.mem_cons_of_mem _ hx) hqx)
      · intro hqa
        exact hN.1 ((hqid a (List.mem_cons_self _ _) hqa) ▸ List.mem_map_of_mem _ hd')

/-- Claiming preserves the id column of the store. -/
theorem claimUpdate_map_id (ids : List JobId) (rid : JobId) (wt : Option Int) (now : Time)
    (s : Store) :
    ((claimUpdate ids rid wt now s).1).map (fun d => d._id) = s.map (fun d => d._id) := by
  simp only [claimUpdate, updateWhere, List.map_map]
  congr 1
  funext d
  by_cases hq : claimQuery ids d = true <;> simp [hq, claimMods]

/-- Membership in the ready-unclaimed id list, unfolded. -/
theorem mem_readyUnclaimed {i : JobId} {s : Store} :
    i ∈ readyUnclaimed s ↔
      ∃ d ∈ s, d.status = JobStatus.ready ∧ d.runId = none ∧ d._id = i := by
  simp only [readyUnclaimed, List.mem_map, List.mem_filter, Bool.and_eq_true, beq_iff_eq]
  constructor
  · rintro ⟨d, ⟨hd, hs, hr⟩, rfl⟩
    exact ⟨d, hd, hs, hr, rfl⟩
  · rintro ⟨d, hd, hs, hr, rfl⟩
    exact ⟨d, ⟨hd, hs, hr⟩, rfl⟩

/-- A matched (claimed) id was ready and unclaimed at claim time. -/
theorem claimMatched_mem {ids : List JobId} {s : Store} {i : JobId}
    (hi : i ∈ claimMatched ids s) : i ∈ readyUnclaimed s := by
  rw [mem_readyUnclaimed]
  simp only [claimMatched, List.mem_map, List.mem_filter] at hi
  obtain ⟨d, ⟨hd, hq⟩, rfl⟩ := hi
  simp only [claimQuery, Bool.and_eq_true, beq_iff_eq] at hq
  exact ⟨d, hd, hq.1.2, hq.2, rfl⟩

/-- With unique document ids, the matched set of one claim has no
duplicates. -/
theorem claimMatched_nodup {ids : List JobId} {s : Store}
    (h : (s.map (fun d => d._id)).Nodup) : (claimMatched ids s).Nodup :=
  List.Nodup.sublist (List.Sublist.map _ (List.filter_sublist s)) h

/-- Going through a claim never makes a job ready and unclaimed. -/
theorem mem_readyUnclaimed_after_claim {s : Store} {ids : List JobId} {rid : JobId}
    {wt : Option Int} {now : Time} {i : JobId}
    (hi : i ∈ readyUnclaimed (claimUpdate ids rid wt now s).1) : i ∈ readyUnclaimed s := by
  rw [mem_readyUnclaimed] at hi ⊢
  obtain ⟨d', hd', hst, hrun, hid⟩ := hi
  simp only [claimUpdate, updateWhere, List.mem_map] at hd'
  obtain ⟨d, hd, rfl⟩ := hd'
  by_cases hq : claimQuery ids d = true
  · simp [hq, claimMods] at hst
  · simp only [hq, if_false, Bool.false_eq_true] at hst hrun hid
    exact ⟨d, hd, hst, hrun, hid⟩

/-- A job id matched by a claim is no longer ready and unclaimed
afterwards (its `runId` has been stamped). -/
theorem claimMatched_not_after {s : Store} {ids : List JobId} {rid : JobId} {wt : Option Int}
    {now : Time} {i : JobId} (h : (s.map (fun d => d._id)).Nodup)
    (hi : i ∈ claimMatched ids s) :
    i ∉ readyUnclaimed (claimUpdate ids rid wt now s).1 := by
  intro hmem
  rw [mem_readyUnclaimed] at hmem
  obtain ⟨d', hd', hst, hrun, hid⟩ := hmem
  simp only [claimUpdate, updateWhere, List.mem_map] at hd'
  obtain ⟨d, hd, rfl⟩ := hd'
  simp only [claimMatched, List.mem_map, List.mem_filter] at hi
  obtain ⟨e, ⟨he, hq⟩, hie⟩ := hi
  by_cases hqd : claimQuery ids d = true
  · simp [hqd, claimMods] at hst
  · simp only [hqd, if_false, Bool.false_eq_true] at hst hrun hid
    have hed : e = d := List.inj_on_of_nodup_map h he hd (by rw [hie, hid])
    exact hqd (hed ▸ hq)

/-- C1: across any interleaving of concurrently executing `getWork`
calls (each performing conditional multi-updates evaluated as
compare-and-swap on `status = ready` and `runId = null`), no job id is
claimed more than once, and every claimed id was a ready, unclaimed job
of the initial store. -/
theorem at_most_one_claimant (evs : List ClaimEv) (s : Store)
    (h : (s.map (fun d => d._id)).Nodup) :
    (runClaims evs s).2.Nodup ∧ ∀ i ∈ (runClaims evs s).2, i ∈ readyUnclaimed s := by
  induction evs generalizing s with
  | nil => simp [runClaims]
  | cons ev evs ih =>
    have h' : (((claimUpdate ev.ids ev.rid ev.wt ev.now s).1).map (fun d => d._id)).Nodup := by
      rw [claimUpdate_map_id]; exact h
    obtain ⟨ihN, ihM⟩ := ih _ h'
    refine ⟨?_, ?_⟩
    · simp only [runClaims]
      refine List.Nodup.append (claimMatched_nodup h) ihN ?_
      intro i hi₁ hi₂
      exact claimMatched_not_after h hi₁ (ihM i hi₂)
    · intro i hi
      simp only [runClaims, List.mem_append] at hi
      rcases hi with hi | hi
      · exact claimMatched_mem hi
      · exact mem_readyUnclaimed_after_claim (ihM i hi)

/-- C1 witness: a concrete two-session interleaving over two ready jobs. -/
theorem at_most_one_claimant_witness :
    (runClaims [⟨5, [1, 2], none, 0⟩, ⟨6, [1, 2], none, 0⟩]
        [mkDoc 1 .ready none, mkDoc 2 .ready none]).2.Nodup ∧
      ∀ i ∈ (runClaims [⟨5, [1, 2], none, 0⟩, ⟨6, [1, 2], none, 0⟩]
        [mkDoc 1 .ready none, mkDoc 2 .ready none]).2,
        i ∈ readyUnclaimed [mkDoc 1 .ready none, mkDoc 2 .ready none] :=
  at_most_one_claimant _ _ (by decide)

/-- C10: while the job server is stopped (initially, or after
`shutdownJobServer`), `getWork` returns an empty array and leaves the
store untouched, no matter how many ready jobs exist. -/
theorem stopped_server_getWork_empty (types : List String) (maxJobs : Nat) (rid : JobId)
    (wt : Option Int) (now : Time) (s : Store) (b : Bool) :
    serverGetWork serverInitialStopped types maxJobs rid wt now s = (s, []) ∧
    serverGetWork (shutdownJobServer b) types maxJobs rid wt now s = (s, []) := by
  constructor <;> rfl

/-- C6: `jobRemove` deletes a targeted job exactly when its status is in
`{cancelled, completed, failed}`, and a second `jobRemove` on the same id
(with nothing interleaved) returns `false` and changes nothing. -/
theorem remove_terminal_idempotent (ids : List JobId) (s : Store) :
    (∀ d ∈ s, d ∈ (jobRemove ids s).1 ↔ ¬(d._id ∈ ids ∧ d.status ∈ jobStatusRemovable)) ∧
    (∀ i ∈ ids, (∃ d ∈ s, d._id = i ∧ d.status ∈ jobStatusRemovable) →
      (jobRemove ids s).2 = true ∧
      jobRemove ids (jobRemove ids s).1 = ((jobRemove ids s).1, false)) := by
  by_cases hE : ids.isEmpty
  · have hnil : ids = [] := List.isEmpty_iff.1 hE
    subst hnil
    refine ⟨fun d hd => ?_, fun i hi => absurd hi (List.not_mem_nil i)⟩
    simp [jobRemove, hd]
  · constructor
    · intro d hd
      simp only [jobRemove, hE, Bool.false_eq_true, if_false, List.mem_filter,
        Bool.not_eq_true', Bool.and_eq_true, contains_iff_mem, hd, true_and,
        Bool.and_eq_false_iff]
      constructor
      · rintro h ⟨h1, h2⟩
        rcases h with h | h
        · rw [contains_iff_mem.2 h1] at h
          cases h
        · rw [contains_iff_mem.2 h2] at h
          cases h
      · intro h
        by_cases h1 : d._id ∈ ids
        · by_cases h2 : d.status ∈ jobStatusRemovable
          · exact absurd ⟨h1, h2⟩ h
          · right
            simpa [contains_iff_mem] using h2
        · left
          simpa [contains_iff_mem] using h1
    · rintro i hi ⟨d, hd, rfl, hst⟩
      have hq : (ids.contains d._id && jobStatusRemovable.contains d.status) = true := by
        rw [Bool.and_eq_true]
        exact ⟨contains_iff_mem.2 hi, contains_iff_mem.2 hst⟩
      constructor
      · simp only [jobRemove, hE, Bool.false_eq_true, if_false, decide_eq_true_eq]
        exact List.length_pos_of_mem (List.mem_filter.2 ⟨hd, hq⟩)
      · have hfil : ∀ x ∈ (jobRemove ids s).1,
            (ids.contains x._id && jobStatusRemovable.contains x.status) = false := by
          intro x hx
          simp only [jobRemove, hE, Bool.false_eq_true, if_false, List.mem_filter,
            Bool.not_eq_true'] at hx
          exact hx.2
        set s' := (jobRemove ids s).1 with hs'
        have h1 : s'.filter
            (fun x => !(ids.contains x._id && jobStatusRemovable.contains x.status)) = s' :=
          List.filter_eq_self.2 (fun x hx => by rw [hfil x hx]; rfl)
        have h2 : s'.filter
            (fun x => ids.contains x._id && jobStatusRemovable.contains x.status) = [] :=
          List.filter_eq_nil_iff.2 (fun x hx hqx => by rw [hfil x hx] at hqx; cases hqx)
        show jobRemove ids s' = (s', false)
        unfold jobRemove
        simp only [hE, Bool.false_eq_true, if_false]
        rw [h1, h2]
        simp

/-- C5: `jobProgress` rejects invalid arguments (negative values or
`total < completed`) leaving the store unchanged; it reports success only
when a document with the given id, matching run id and status `running`
exists; and then it stores `percent = 100 * completed / total` and
refreshes `expiresAfter` by `workTimeout` when one is set. -/
theorem progress_validation (id rid : JobId) (completed total : Rat) (now : Time) (s : Store)
    (hN : (s.map (fun x => x._id)).Nodup) :
    ((total < completed ∨ completed < 0 ∨ total < 0) →
      jobProgress id rid completed total now s = (s, none)) ∧
    ((jobProgress id rid completed total now s).2 = some true →
      ∃ e ∈ s, e._id = id ∧ e.runId = some rid ∧ e.status = JobStatus.running) ∧
    (∀ d, d ∈ s → d._id = id → d.runId = some rid → d.status = JobStatus.running →
      0 ≤ completed → 0 < total → completed ≤ total →
      (jobProgress id rid completed total now s).2 = some true ∧
      ∃ d', Store.lookup (jobProgress id rid completed total now s).1 id = some d' ∧
        d'.progress.completed = completed ∧ d'.progress.total = total ∧
        d'.progress.percent = 100 * completed / total ∧
        (∀ w, d.workTimeout = some w → d'.expiresAfter = some (now + w)) ∧
        (d.workTimeout = none → d'.expiresAfter = d.expiresAfter)) := by
  refine ⟨?_, ?_, ?_⟩
  · intro h
    simp only [jobProgress]
    split_ifs with h1 h2 h3
    · exfalso
      rcases h with h | h | h
      · exact absurd h3.1 (not_le.2 h)
      · exact absurd h1 (not_le.2 h)
      · exact absurd h2 (not_lt.2 h.le)
    · rfl
    · rfl
    · rfl
  · intro h
    simp only [jobProgress] at h
    split_ifs at h with h1 h2 h3
    · simp only [Option.some.injEq, decide_eq_true_eq, updateWhere] at h
      have hpos : 0 < (s.filter (fun d => d._id == id && d.runId == some rid &&
          d.status == JobStatus.running)).length := by omega
      obtain ⟨e, he⟩ := List.exists_mem_of_length_pos hpos
      have := List.mem_filter.1 he
      refine ⟨e, this.1, ?_⟩
      have hq := this.2
      simp only [Bool.and_eq_true, beq_iff_eq] at hq
      exact ⟨hq.1.1, hq.1.2, hq.2⟩
  · intro d hd hid hrun hst hc ht hct
    subst hid
    have hperc0 : 0 ≤ 100 * completed / total := by positivity
    have hperc100 : 100 * completed / total ≤ 100 := by
      rw [div_le_iff₀ ht]
      nlinarith
    have hlk : Store.lookup s d._id = some d := lookup_eq_of_mem hN hd
    have hq : (d._id == d._id && d.runId == some rid && d.status == JobStatus.running)
        = true := by
      simp [hrun, hst]
    have hfil : s.filter
        (fun x => x._id == d._id && x.runId == some rid && x.status == JobStatus.running)
        = [d] := by
      refine filter_by_id_eq hN hd hq ?_
      intro x _ hqx
      simp only [Bool.and_eq_true, beq_iff_eq] at hqx
      exact hqx.1.1
    have hres : jobProgress d._id rid completed total now s =
        ((updateWhere (fun x => x._id == d._id && x.runId == some rid &&
            x.status == JobStatus.running)
          (fun x => { x with
              progress := ⟨completed, total, 100 * completed / total⟩,
              updated := now,
              expiresAfter := match d.workTimeout with
                | some w => some (now + w)
                | none => x.expiresAfter }) s).1, some true) := by
      simp only [jobProgress, hlk]
      rw [if_pos hc, if_pos ht, if_pos ⟨hct, hperc0, hperc100⟩]
      simp only [updateWhere, hfil, List.length_cons, List.length_nil]
      simp
    have hlk2 := lookup_updateWhere
      (fun x => x._id == d._id && x.runId == some rid && x.status == JobStatus.running)
      (fun x => { x with
          progress := ⟨completed, total, 100 * completed / total⟩,
          updated := now,
          expiresAfter := match d.workTimeout with
            | some w => some (now + w)
            | none => x.expiresAfter }) s d._id (fun x => rfl)
    rw [hlk] at hlk2
    rw [hres]
    refine ⟨rfl, ⟨{ d with
        progress := ⟨completed, total, 100 * completed / total⟩,
        updated := now,
        expiresAfter := match d.workTimeout with
          | some w => some (now + w)
          | none => d.expiresAfter }, ?_, rfl, rfl, rfl, ?_, ?_⟩⟩
    · exact hlk2.trans (by simp [Option.map_some', hrun, hst])
    · intro w hw
      simp [hw]
    · intro hw
      simp [hw]

/-- C6 witness: removing a completed job once succeeds, twice no-ops. -/
theorem remove_terminal_idempotent_witness :
    (jobRemove [1] [mkDoc 1 .completed none]).2 = true ∧
    jobRemove [1] (jobRemove [1] [mkDoc 1 .completed none]).1 =
      ((jobRemove [1] [mkDoc 1 .completed none]).1, false) :=
  (remove_terminal_idempotent [1] [mkDoc 1 .completed none]).2 1 (by decide)
    ⟨mkDoc 1 .completed none, by simp, rfl, by decide⟩

/-- C5 witness: a valid progress call on a running job succeeds. -/
theorem progress_validation_witness :
    (jobProgress 1 7 1 2 5 [mkDoc 1 JobStatus.running (some 7)]).2 = some true :=
  ((progress_validation 1 7 1 2 5 [mkDoc 1 .running (some 7)] (by decide)).2.2
    (mkDoc 1 .running (some 7)) (by simp) rfl rfl rfl (by norm_num) (by norm_num)
    (by norm_num)).1

/-- With unique ids, `find?` with an id-pinning predicate returns the
matching member document. -/
theorem find?_by_id_eq {q : JobDoc → Bool} {s : Store} {d : JobDoc}
    (hN : (s.map (fun x => x._id)).Nodup) (hd : d ∈ s) (hqd : q d = true)
    (hqid : ∀ x ∈ s, q x = true → x._id = d._id) :
    s.find? q = some d := by
  induction s with
  | nil => cases hd
  | cons a as ih =>
    rw [List.map_cons, List.nodup_cons] at hN
    rcases List.mem_cons.1 hd with rfl | hd'
    · exact List.find?_cons_of_pos _ hqd
    · rw [List.find?_cons_of_neg]
      · exact ih hN.2 hd' (fun x hx hqx => hqid x (List.mem_cons_of_mem _ hx) hqx)
      · intro hqa
        exact hN.1 ((hqid a (List.mem_cons_self _ _) hqa) ▸ List.mem_map_of_mem _ hd')

/-- `jobCancel` never touches a document in a non-cancellable status. -/
theorem jobCancel_lookup_noncancellable {i : JobId} {d : JobDoc}
    (hst : jobStatusCancellable.contains d.status = false) :
    ∀ (fuel : Nat) (ids : List JobId) (ants deps : Bool) (now : Time) (s : Store),
      Store.lookup s i = some d →
      Store.lookup (jobCancel fuel ids ants deps now s).1 i = some d := by
  intro fuel
  induction fuel with
  | zero => intro ids ants deps now s hlk; exact hlk
  | succ fuel ih =>
    intro ids ants deps now s hlk
    have h1 : Store.lookup (updateWhere
        (fun x => ids.contains x._id && jobStatusCancellable.contains x.status)
        (cancelMods now) s).1 i = some d := by
      rw [lookup_updateWhere (fun x => ids.contains x._id &&
        jobStatusCancellable.contains x.status) (cancelMods now) s i (fun x => rfl), hlk]
      simp only [Option.map_some']
      have hq' : ¬((ids.contains d._id && jobStatusCancellable.contains d.status) = true) := by
        rw [Bool.and_eq_true]
        rintro ⟨-, h2⟩
        rw [h2] at hst
        exact absurd hst (by decide)
      rw [if_neg hq']
    unfold jobCancel
    by_cases hE : ids.isEmpty
    · simp only [hE, if_true]
      exact hlk
    · simp only [hE, Bool.false_eq_true, if_false]
      by_cases hC : (idsOfDeps (updateWhere
          (fun x => ids.contains x._id && jobStatusCancellable.contains x.status)
          (cancelMods now) s).1 ids ants deps jobStatusCancellable).isEmpty
      · simp only [hC, if_true]
        exact h1
      · simp only [hC, Bool.false_eq_true, if_false]
        exact ih _ _ _ _ _ h1

/-- The dependent-cancellation fold of `jobFail` never touches a
document in a non-cancellable status. -/
theorem cancelFold_lookup_noncancellable {i : JobId} {d : JobDoc}
    (hst : jobStatusCancellable.contains d.status = false) (fuel : Nat) (now : Time) :
    ∀ (l : List JobDoc) (s : Store),
      Store.lookup s i = some d →
      Store.lookup (l.foldl (fun st x => (jobCancel fuel [x._id] false true now st).1) s)
        i = some d := by
  intro l
  induction l with
  | nil => intro s hlk; exact hlk
  | cons a as ih =>
    intro s hlk
    exact ih _ (jobCancel_lookup_noncancellable hst fuel [a._id] false true now s hlk)

/-- Updates keep the id column (general form). -/
theorem updateWhere_map_ids (q : JobDoc → Bool) (f : JobDoc → JobDoc) (s : Store)
    (hf : ∀ x, (f x)._id = x._id) :
    ((updateWhere q f s).1).map (fun x => x._id) = s.map (fun x => x._id) := by
  simp only [updateWhere, List.map_map]
  congr 1
  funext x
  by_cases hq : q x = true <;> simp [hq, hf]

/-- `jobCancel` keeps the id column. -/
theorem jobCancel_map_ids :
    ∀ (fuel : Nat) (ids : List JobId) (ants deps : Bool) (now : Time) (s : Store),
      ((jobCancel fuel ids ants deps now s).1).map (fun x => x._id) =
        s.map (fun x => x._id) := by
  intro fuel
  induction fuel with
  | zero => intros; rfl
  | succ fuel ih =>
    intro ids ants deps now s
    unfold jobCancel
    by_cases hE : ids.isEmpty
    · simp [hE]
    · simp only [hE, Bool.false_eq_true, if_false]
      by_cases hC : (idsOfDeps (updateWhere (fun d => ids.contains d._id &&
          jobStatusCancellable.contains d.status) (cancelMods now) s).1 ids ants deps
          jobStatusCancellable).isEmpty
      · simp only [hC, if_true]
        exact updateWhere_map_ids _ _ s (by intro x; rfl)
      · simp only [hC, Bool.false_eq_true, if_false]
        rw [ih]
        exact updateWhere_map_ids _ _ s (by intro x; rfl)

/-- The dependent-cancellation fold keeps the id column. -/
theorem cancelFold_map_ids (fuel : Nat) (now : Time) :
    ∀ (l : List JobDoc) (s : Store),
      ((l.foldl (fun st x => (jobCancel fuel [x._id] false true now st).1) s)).map
        (fun x => x._id) = s.map (fun x => x._id) := by
  intro l
  induction l with
  | nil => intro s; rfl
  | cons a as ih =>
    intro s
    rw [List.foldl_cons, ih, jobCancel_map_ids]

/-- `jobFail` keeps the id column. -/
theorem jobFail_map_ids (fuel : Nat) (i rid : JobId) (err : String) (fatal : Bool)
    (now : Time) (s : Store) :
    ((jobFail fuel i rid err fatal now s).1).map (fun x => x._id) =
      s.map (fun x => x._id) := by
  cases hfind : s.find? (fun d => d._id == i && d.runId == some rid &&
      d.status == JobStatus.running) with
  | none => simp only [jobFail, hfind]
  | some doc =>
    simp only [jobFail, hfind]
    split
    · rw [if_neg (by rintro ⟨h, -⟩; cases h)]
      exact updateWhere_map_ids _ _ s (by intro x; rfl)
    · split
      · rw [cancelFold_map_ids]
        exact updateWhere_map_ids _ _ s (by intro x; rfl)
      · exact updateWhere_map_ids _ _ s (by intro x; rfl)

/-- `jobCancel` never changes the `failures` or `depends` of any
document. -/
theorem jobCancel_failures_depends :
    ∀ (fuel : Nat) (ids : List JobId) (ants deps : Bool) (now : Time) (s : Store)
      (j : JobId) (e : JobDoc), Store.lookup s j = some e →
      ∃ e', Store.lookup (jobCancel fuel ids ants deps now s).1 j = some e' ∧
        e'.failures = e.failures ∧ e'.depends = e.depends := by
  intro fuel
  induction fuel with
  | zero =>
    intro ids ants deps now s j e hlk
    exact ⟨e, hlk, rfl, rfl⟩
  | succ fuel ih =>
    intro ids ants deps now s j e hlk
    have h1 : Store.lookup (updateWhere (fun d => ids.contains d._id &&
        jobStatusCancellable.contains d.status) (cancelMods now) s).1 j =
        some (if (ids.contains e._id && jobStatusCancellable.contains e.status) = true
          then cancelMods now e else e) := by
      rw [lookup_updateWhere (fun d => ids.contains d._id &&
        jobStatusCancellable.contains d.status) (cancelMods now) s j (fun x => rfl), hlk]
      rfl
    have hf2 : (if (ids.contains e._id && jobStatusCancellable.contains e.status) = true
        then cancelMods now e else e).failures = e.failures := by
      split <;> rfl
    have hd2 : (if (ids.contains e._id && jobStatusCancellable.contains e.status) = true
        then cancelMods now e else e).depends = e.depends := by
      split <;> rfl
    unfold jobCancel
    by_cases hE : ids.isEmpty
    · simp only [hE, if_true]
      exact ⟨e, hlk, rfl, rfl⟩
    · simp only [hE, Bool.false_eq_true, if_false]
      by_cases hC : (idsOfDeps (updateWhere (fun d => ids.contains d._id &&
          jobStatusCancellable.contains d.status) (cancelMods now) s).1 ids ants deps
          jobStatusCancellable).isEmpty
      · simp only [hC, if_true]
        exact ⟨_, h1, hf2, hd2⟩
      · simp only [hC, Bool.false_eq_true, if_false]
        obtain ⟨e', he', hf', hd'⟩ := ih _ _ _ _ _ _ _ h1
        exact ⟨e', he', hf'.trans hf2, hd'.trans hd2⟩

/-- The dependent-cancellation fold never changes `failures` or
`depends`. -/
theorem cancelFold_failures_depends (fuel : Nat) (now : Time) :
    ∀ (l : List JobDoc) (s : Store) (j : JobId) (e : JobDoc),
      Store.lookup s j = some e →
      ∃ e', Store.lookup
          (l.foldl (fun st x => (jobCancel fuel [x._id] false true now st).1) s) j =
          some e' ∧ e'.failures = e.failures ∧ e'.depends = e.depends := by
  intro l
  induction l with
  | nil =>
    intro s j e hlk
    exact ⟨e, hlk, rfl, rfl⟩
  | cons a as ih =>
    intro s j e hlk
    rw [List.foldl_cons]
    obtain ⟨e1, he1, hf1, hd1⟩ :=
      jobCancel_failures_depends fuel [a._id] false true now s j e hlk
    obtain ⟨e2, he2, hf2, hd2⟩ := ih _ _ _ he1
    exact ⟨e2, he2, hf2.trans hf1, hd2.trans hd1⟩

/-- `jobFail` never changes the `failures` or `depends` of a document
other than its target. -/
theorem jobFail_failures_other (fuel : Nat) (i rid : JobId) (err : String) (fatal : Bool)
    (now : Time) (s : Store) (j : JobId) (e : JobDoc) (hne : e._id ≠ i)
    (hlk : Store.lookup s j = some e) :
    ∃ e', Store.lookup (jobFail fuel i rid err fatal now s).1 j = some e' ∧
      e'.failures = e.failures ∧ e'.depends = e.depends := by
  cases hfind : s.find? (fun d => d._id == i && d.runId == some rid &&
      d.status == JobStatus.running) with
  | none =>
    simp only [jobFail, hfind]
    exact ⟨e, hlk, rfl, rfl⟩
  | some doc =>
    have h1 : ∀ (ns : JobStatus) (af : Time),
        Store.lookup (updateWhere (fun d => d._id == i && d.runId == some rid &&
          d.status == JobStatus.running) (failMods ns af rid err now) s).1 j = some e := by
      intro ns af
      rw [lookup_updateWhere (fun d => d._id == i && d.runId == some rid &&
        d.status == JobStatus.running) (failMods ns af rid err now) s j (fun x => rfl), hlk]
      simp only [Option.map_some']
      have hq' : ¬((e._id == i && e.runId == some rid &&
          e.status == JobStatus.running) = true) := by
        rw [Bool.and_eq_true, Bool.and_eq_true]
        rintro ⟨⟨h2, -⟩, -⟩
        exact hne (by simpa using h2)
      rw [if_neg hq']
    simp only [jobFail, hfind]
    split
    · rw [if_neg (by rintro ⟨h, -⟩; cases h)]
      exact ⟨e, h1 _ _, rfl, rfl⟩
    · split
      · exact cancelFold_failures_depends fuel now _ _ _ _ (h1 _ _)
      · exact ⟨e, h1 _ _, rfl, rfl⟩

/-- Membership in the dedup-accumulating fold of `idsOfDeps`. -/
theorem mem_foldl_addUnique {i : JobId} :
    ∀ (l : List JobDoc) (acc : List JobId),
      i ∈ l.foldl (fun acc d => if acc.contains d._id then acc else acc ++ [d._id]) acc →
      i ∈ acc ∨ ∃ d ∈ l, d._id = i := by
  intro l
  induction l with
  | nil =>
    intro acc h
    exact Or.inl h
  | cons a as ih =>
    intro acc h
    rw [List.foldl_cons] at h
    rcases ih _ h with h' | ⟨d, hd, rfl⟩
    · by_cases hc : acc.contains a._id = true
      · rw [if_pos hc] at h'
        exact Or.inl h'
      · rw [if_neg hc] at h'
        rcases List.mem_append.1 h' with h'' | h''
        · exact Or.inl h''
        · exact Or.inr ⟨a, List.mem_cons_self _ _, (List.mem_singleton.1 h'').symm⟩
    · exact Or.inr ⟨d, List.mem_cons_of_mem _ hd, rfl⟩

/-- An id produced by `idsOfDeps` belongs to a store document satisfying
the dependency condition. -/
theorem mem_idsOfDeps {i : JobId} {s : Store} {ids : List JobId} {ants deps : Bool}
    {sts : List JobStatus} (h : i ∈ idsOfDeps s ids ants deps sts) :
    ∃ d ∈ s, d._id = i ∧ (sts.contains d.status &&
      ((deps && d.depends.any (fun k => ids.contains k)) ||
        (ants && (if ants then
            (s.filter (fun d => ids.contains d._id)).foldl
              (fun acc d => d.depends.foldl
                (fun a k => if a.contains k then a else a ++ [k]) acc) []
          else []).contains d._id))) = true := by
  unfold idsOfDeps at h
  rcases mem_foldl_addUnique _ _ h with h' | ⟨d, hd, rfl⟩
  · cases h'
  · have := List.mem_filter.1 hd
    exact ⟨d, this.1, rfl, this.2⟩

/-- `jobCancel` on the dependency cascade (`antecedents = false`,
`dependents = true`) never touches a document with empty `depends`, as
long as every handed id belongs to a document with non-empty
`depends`. -/
theorem jobCancel_lookup_emptyDeps {j : JobId} {e : JobDoc} (he : e.depends = []) :
    ∀ (fuel : Nat) (ids : List JobId) (now : Time) (s : Store),
      (s.map (fun x => x._id)).Nodup →
      (∀ i ∈ ids, ∃ y, Store.lookup s i = some y ∧ y.depends ≠ []) →
      Store.lookup s j = some e →
      Store.lookup (jobCancel fuel ids false true now s).1 j = some e := by
  intro fuel
  induction fuel with
  | zero =>
    intro ids now s _ _ hlk
    exact hlk
  | succ fuel ih =>
    intro ids now s hN hall hlk
    have hej : e._id = j := by
      simpa using List.find?_some (show List.find? (fun d => d._id == j) s = some e from hlk)
    have hq' : ¬((ids.contains e._id && jobStatusCancellable.contains e.status) = true) := by
      rw [Bool.and_eq_true]
      rintro ⟨h2, -⟩
      obtain ⟨y, hy, hyd⟩ := hall e._id (contains_iff_mem.1 h2)
      rw [hej] at hy
      rw [hy] at hlk
      cases hlk
      exact hyd he
    have h1 : Store.lookup (updateWhere (fun d => ids.contains d._id &&
        jobStatusCancellable.contains d.status) (cancelMods now) s).1 j = some e := by
      rw [lookup_updateWhere (fun d => ids.contains d._id &&
        jobStatusCancellable.contains d.status) (cancelMods now) s j (fun x => rfl), hlk]
      simp only [Option.map_some']
      rw [if_neg hq']
    have hN1 : ((updateWhere (fun d => ids.contains d._id &&
        jobStatusCancellable.contains d.status) (cancelMods now) s).1.map
        (fun x => x._id)).Nodup := by
      rw [updateWhere_map_ids _ _ s (by intro x; rfl)]
      exact hN
    unfold jobCancel
    by_cases hE : ids.isEmpty
    · simp only [hE, if_true]
      exact hlk
    · simp only [hE, Bool.false_eq_true, if_false]
      by_cases hC : (idsOfDeps (updateWhere (fun d => ids.contains d._id &&
          jobStatusCancellable.contains d.status) (cancelMods now) s).1 ids false true
          jobStatusCancellable).isEmpty
      · simp only [hC, if_true]
        exact h1
      · simp only [hC, Bool.false_eq_true, if_false]
        refine ih _ _ _ hN1 ?_ h1
        intro i hi
        obtain ⟨d, hd, rfl, hcond⟩ := mem_idsOfDeps hi
        refine ⟨d, lookup_eq_of_mem hN1 hd, ?_⟩
        intro hdep0
        simp only [Bool.and_eq_true, Bool.or_eq_true, Bool.false_eq_true,
          false_and, or_false, if_false, List.contains_nil, and_false] at hcond
        rcases hcond.2 with ⟨-, hany⟩
        rw [hdep0] at hany
        simp at hany

/-- The dependent-cancellation fold never touches a document with empty
`depends`, as long as every folded document has non-empty `depends`. -/
theorem cancelFold_lookup_emptyDeps {j : JobId} {e : JobDoc} (he : e.depends = [])
    (fuel : Nat) (now : Time) :
    ∀ (l : List JobDoc) (s : Store),
      (s.map (fun x => x._id)).Nodup →
      (∀ x ∈ l, ∃ y, Store.lookup s x._id = some y ∧ y.depends ≠ []) →
      Store.lookup s j = some e →
      Store.lookup (l.foldl (fun st x => (jobCancel fuel [x._id] false true now st).1) s)
        j = some e := by
  intro l
  induction l with
  | nil =>
    intro s _ _ hlk
    exact hlk
  | cons a as ih =>
    intro s hN hall hlk
    rw [List.foldl_cons]
    have h1 : Store.lookup (jobCancel fuel [a._id] false true now s).1 j = some e :=
      jobCancel_lookup_emptyDeps he fuel [a._id] now s hN
        (by
          intro i hi
          rw [List.mem_singleton] at hi
          subst hi
          exact hall a (List.mem_cons_self _ _)) hlk
    refine ih _ ?_ ?_ h1
    · rw [jobCancel_map_ids]
      exact hN
    · intro x hx
      obtain ⟨y, hy, hyd⟩ := hall x (List.mem_cons_of_mem _ hx)
      obtain ⟨y', hy', hf', hd'⟩ :=
        jobCancel_failures_depends fuel [a._id] false true now s _ _ hy
      refine ⟨y', hy', ?_⟩
      rw [hd']
      exact hyd

/-- `jobFail` leaves a non-target document with empty `depends` entirely
unchanged. -/
theorem jobFail_lookup_other {i j : JobId} {e : JobDoc} (he : e.depends = [])
    (hne : e._id ≠ i) (fuel : Nat) (rid : JobId) (err : String) (fatal : Bool)
    (now : Time) (s : Store) (hN : (s.map (fun x => x._id)).Nodup)
    (hlk : Store.lookup s j = some e) :
    Store.lookup (jobFail fuel i rid err fatal now s).1 j = some e := by
  cases hfind : s.find? (fun d => d._id == i && d.runId == some rid &&
      d.status == JobStatus.running) with
  | none =>
    simpa only [jobFail, hfind] using hlk
  | some doc =>
    have h1 : ∀ (ns : JobStatus) (af : Time),
        Store.lookup (updateWhere (fun d => d._id == i && d.runId == some rid &&
          d.status == JobStatus.running) (failMods ns af rid err now) s).1 j = some e := by
      intro ns af
      rw [lookup_updateWhere (fun d => d._id == i && d.runId == some rid &&
        d.status == JobStatus.running) (failMods ns af rid err now) s j (fun x => rfl), hlk]
      simp only [Option.map_some']
      have hq' : ¬((e._id == i && e.runId == some rid &&
          e.status == JobStatus.running) = true) := by
        rw [Bool.and_eq_true, Bool.and_eq_true]
        rintro ⟨⟨h2, -⟩, -⟩
        exact hne (by simpa using h2)
      rw [if_neg hq']
    have hN1 : ∀ (ns : JobStatus) (af : Time),
        ((updateWhere (fun d => d._id == i && d.runId == some rid &&
          d.status == JobStatus.running) (failMods ns af rid err now) s).1.map
          (fun x => x._id)).Nodup := by
      intro ns af
      rw [updateWhere_map_ids _ _ s (by intro x; rfl)]
      exact hN
    simp only [jobFail, hfind]
    split
    · rw [if_neg (by rintro ⟨h, -⟩; cases h)]
      exact h1 _ _
    · split
      · refine cancelFold_lookup_emptyDeps he fuel now _ _ (hN1 _ _) ?_ (h1 _ _)
        intro x hx
        have hx' := List.mem_filter.1 hx
        refine ⟨x, lookup_eq_of_mem (hN1 _ _) hx'.1, ?_⟩
        intro hdep0
        rw [hdep0] at hx'
        simpa using hx'.2
      · exact h1 _ _

/-- A successful lookup returns a document carrying the looked-up id. -/
theorem lookup_id {s : Store} {j : JobId} {e : JobDoc} (h : Store.lookup s j = some e) :
    e._id = j := by
  simpa using List.find?_some (show List.find? (fun d => d._id == j) s = some e from h)

/-- The effect of `jobFail` on its target document (a running job with a
matching run id and empty `depends`): failure record appended, `depends`
kept empty, id kept. -/
theorem jobFail_target {s : Store} {d : JobDoc} {rid : JobId} (fuel : Nat) (err : String)
    (fatal : Bool) (now : Time) (hN : (s.map (fun x => x._id)).Nodup)
    (hlk : Store.lookup s d._id = some d) (hrun : d.runId = some rid)
    (hst : d.status = JobStatus.running) (hdep : d.depends = []) :
    ∃ d', Store.lookup (jobFail fuel d._id rid err fatal now s).1 d._id = some d' ∧
      d'.failures = d.failures ++ [⟨err, some rid⟩] ∧ d'.depends = [] ∧
      d'._id = d._id := by
  have hd : d ∈ s := List.mem_of_find?_eq_some hlk
  have hq : (d._id == d._id && d.runId == some rid && d.status == JobStatus.running)
      = true := by simp [hrun, hst]
  have hqid : ∀ x ∈ s, (x._id == d._id && x.runId == some rid &&
      x.status == JobStatus.running) = true → x._id = d._id := by
    intro x _ hqx
    simp only [Bool.and_eq_true, beq_iff_eq] at hqx
    exact hqx.1.1
  have hfind : s.find? (fun x => x._id == d._id && x.runId == some rid &&
      x.status == JobStatus.running) = some d := find?_by_id_eq hN hd hq hqid
  have hfil : s.filter (fun x => x._id == d._id && x.runId == some rid &&
      x.status == JobStatus.running) = [d] := filter_by_id_eq hN hd hq hqid
  have hnum : ∀ (ns : JobStatus) (af : Time),
      (updateWhere (fun x => x._id == d._id && x.runId == some rid &&
        x.status == JobStatus.running) (failMods ns af rid err now) s).2 = 1 := by
    intro ns af
    simp only [updateWhere, hfil, List.length_cons, List.length_nil]
  have hlk1 : ∀ (ns : JobStatus) (af : Time),
      Store.lookup (updateWhere (fun x => x._id == d._id && x.runId == some rid &&
        x.status == JobStatus.running) (failMods ns af rid err now) s).1 d._id =
      some (failMods ns af rid err now d) := by
    intro ns af
    rw [lookup_updateWhere (fun x => x._id == d._id && x.runId == some rid &&
      x.status == JobStatus.running) (failMods ns af rid err now) s d._id
      (fun x => rfl), hlk]
    simp [Option.map_some', hrun, hst]
  simp only [jobFail, hfind]
  by_cases hcond : (!fatal && decide (0 < d.retries) &&
      decide (failRetryTime now d ≤ d.retryUntil)) = true
  · rw [if_pos hcond, if_neg (by rintro ⟨h, -⟩; cases h)]
    exact ⟨failMods JobStatus.waiting (failRetryTime now d) rid err now d,
      hlk1 _ _, rfl, hdep, rfl⟩
  · rw [if_neg hcond, if_pos ⟨rfl, hnum _ _⟩]
    refine ⟨failMods JobStatus.failed (failRetryTime now d) rid err now d, ?_, rfl, hdep, rfl⟩
    refine cancelFold_lookup_noncancellable ?_ fuel now _ _ (hlk1 _ _)
    rfl

/-- The failing phase of the sweeper, as a fold over the fetched zombie
list: every zombie receives the timeout failure record; every other
document keeps its failures. -/
theorem failExpired_fold (fuel : Nat) (now : Time) :
    ∀ (l : List JobDoc) (s : Store),
      (s.map (fun x => x._id)).Nodup →
      (∀ z ∈ l, Store.lookup s z._id = some z ∧ z.status = JobStatus.running ∧
        (∃ r, z.runId = some r) ∧ z.depends = []) →
      ((l.map (fun z => z._id)).Nodup) →
      (∀ z ∈ l, ∃ d', Store.lookup
          (l.foldl (fun st z => (jobFail fuel z._id (z.runId.getD 0) workTimeoutMsg
            false now st).1) s) z._id = some d' ∧
          d'.failures = z.failures ++ [⟨workTimeoutMsg, z.runId⟩]) ∧
      (∀ j e, Store.lookup s j = some e → (∀ z ∈ l, z._id ≠ e._id) →
        ∃ e', Store.lookup (l.foldl (fun st z => (jobFail fuel z._id (z.runId.getD 0)
          workTimeoutMsg false now st).1) s) j = some e' ∧
          e'.failures = e.failures) := by
  intro l
  induction l with
  | nil =>
    intro s hN hall hLN
    exact ⟨fun z hz => absurd hz (List.not_mem_nil z),
      fun j e hlk _ => ⟨e, hlk, rfl⟩⟩
  | cons a as ih =>
    intro s hN hall hLN
    obtain ⟨hla, hsta, ⟨ra, hra⟩, hdepa⟩ := hall a (List.mem_cons_self _ _)
    rw [List.map_cons, List.nodup_cons] at hLN
    have hrun' : a.runId = some (a.runId.getD 0) := by rw [hra]; rfl
    obtain ⟨a1, ha1, hafail, hadep, haid⟩ :=
      jobFail_target fuel workTimeoutMsg false now hN hla hrun' hsta hdepa
    have hN1 : (((jobFail fuel a._id (a.runId.getD 0) workTimeoutMsg false now s).1).map
        (fun x => x._id)).Nodup := by
      rw [jobFail_map_ids]
      exact hN
    have hall1 : ∀ z ∈ as, Store.lookup
        (jobFail fuel a._id (a.runId.getD 0) workTimeoutMsg false now s).1 z._id = some z ∧
        z.status = JobStatus.running ∧ (∃ r, z.runId = some r) ∧ z.depends = [] := by
      intro z hz
      obtain ⟨hlz, hstz, hrz, hdz⟩ := hall z (List.mem_cons_of_mem _ hz)
      refine ⟨?_, hstz, hrz, hdz⟩
      refine jobFail_lookup_other hdz ?_ fuel _ _ _ now s hN hlz
      intro he
      exact hLN.1 (he ▸ List.mem_map_of_mem _ hz)
    obtain ⟨ihZ, ihO⟩ := ih _ hN1 hall1 hLN.2
    refine ⟨?_, ?_⟩
    · intro z hz
      rcases List.mem_cons.1 hz with rfl | hz'
      · have hside : ∀ z' ∈ as, z'._id ≠ a1._id := by
          intro z' hz' heq
          rw [haid] at heq
          exact hLN.1 (heq ▸ List.mem_map_of_mem _ hz')
        obtain ⟨e', he', hf'⟩ := ihO z._id a1 ha1 hside
        rw [List.foldl_cons]
        refine ⟨e', he', ?_⟩
        rw [hf', hafail, hra]
        rfl
      · rw [List.foldl_cons]
        exact ihZ z hz'
    · intro j e hlk hne
      have hnea : e._id ≠ a._id := fun he => hne a (List.mem_cons_self _ _) he.symm
      obtain ⟨e1, he1, hf1, hd1⟩ := jobFail_failures_other fuel a._id (a.runId.getD 0)
        workTimeoutMsg false now s j e hnea hlk
      have hide : e1._id = e._id := by rw [lookup_id he1, lookup_id hlk]
      have hside : ∀ z ∈ as, z._id ≠ e1._id := by
        intro z hz heq
        rw [hide] at heq
        exact hne z (List.mem_cons_of_mem _ hz) heq
      obtain ⟨e2, he2, hf2⟩ := ihO j e1 he1 hside
      rw [List.foldl_cons]
      exact ⟨e2, he2, hf2.trans hf1⟩

/-- The zombie condition of the sweeper, unfolded. -/
theorem zombie_cond_iff {z : JobDoc} {now : Time} :
    ((z.status == JobStatus.running && match z.expiresAfter with
      | some e => decide (e < now)
      | none => false)) = true ↔
    (z.status = JobStatus.running ∧ ∃ e, z.expiresAfter = some e ∧ e < now) := by
  rw [Bool.and_eq_true, beq_iff_eq]
  constructor
  · rintro ⟨h1, h2⟩
    refine ⟨h1, ?_⟩
    cases he : z.expiresAfter with
    | none =>
      rw [he] at h2
      cases h2
    | some e =>
      rw [he] at h2
      exact ⟨e, rfl, by simpa using h2⟩
  · rintro ⟨h1, e, he, hlt⟩
    refine ⟨h1, ?_⟩
    rw [he]
    simpa using hlt

/-- The pointwise effect of `jobReady` on a lookup. -/
theorem jobReady_lookup (ids : List JobId) (force : Bool) (time? : Option Time)
    (now : Time) (s : Store) (i : JobId) :
    Store.lookup (jobReady ids force time? now s).1 i =
      (Store.lookup s i).map (fun d =>
        if (d.status == JobStatus.waiting && decide (d.after ≤ time?.getD now) &&
            (ids.isEmpty || ids.contains d._id) && (force || d.depends.isEmpty)) = true
        then { d with
            status := JobStatus.ready, updated := now,
            after := if ids.isEmpty then d.after else now,
            depends := if force then [] else d.depends,
            log := d.log ++ ((if force then [logForced now] else []) ++ [logReadied now]) }
        else d) := by
  simp only [jobReady]
  rw [lookup_updateWhere _ _ s i (by intro x; rfl)]

/-- The bulk-promotion condition of `jobReady` with no id filter and no
force, unfolded. -/
theorem readyQ_iff {d : JobDoc} {now : Time} :
    ((d.status == JobStatus.waiting && decide (d.after ≤ (none : Option Time).getD now) &&
      (([] : List JobId).isEmpty || ([] : List JobId).contains d._id) &&
      (false || d.depends.isEmpty)) = true) ↔
    (d.status = JobStatus.waiting ∧ d.after ≤ now ∧ d.depends = []) := by
  simp [Bool.and_eq_true, List.isEmpty_eq_true, and_assoc]

/-- C8: a run of the promotion sweeper first fails — via `jobFail` with
the timeout-specific failure message — exactly the running jobs whose
`expiresAfter` is earlier than now, then performs the bulk `jobReady`
with an empty id filter, promoting exactly the `waiting` jobs with
`after ≤ now` and empty `depends` to `ready`. -/
theorem promotion_sweeper (fuel : Nat) (now : Time) (s : Store)
    (hN : (s.map (fun x => x._id)).Nodup)
    (hinv : ∀ d ∈ s, d.status = JobStatus.running →
      (∃ r, d.runId = some r) ∧ d.depends = []) :
    (∀ d ∈ s, (d.status = JobStatus.running ∧ ∃ e, d.expiresAfter = some e ∧ e < now) →
      ∃ d', Store.lookup (failExpired fuel now s) d._id = some d' ∧
        d'.failures = d.failures ++ [⟨workTimeoutMsg, d.runId⟩]) ∧
    (∀ d ∈ s, ¬(d.status = JobStatus.running ∧ ∃ e, d.expiresAfter = some e ∧ e < now) →
      ∃ d', Store.lookup (failExpired fuel now s) d._id = some d' ∧
        d'.failures = d.failures) ∧
    (∀ i d1, Store.lookup (failExpired fuel now s) i = some d1 →
      (d1.status = JobStatus.waiting ∧ d1.after ≤ now ∧ d1.depends = [] →
        ∃ d2, Store.lookup (promoteJobs false fuel now s) i = some d2 ∧
          d2.status = JobStatus.ready) ∧
      (¬(d1.status = JobStatus.waiting ∧ d1.after ≤ now ∧ d1.depends = []) →
        Store.lookup (promoteJobs false fuel now s) i = some d1)) := by
  have hall : ∀ z ∈ s.filter (fun d => d.status == JobStatus.running &&
      match d.expiresAfter with
      | some e => decide (e < now)
      | none => false),
      Store.lookup s z._id = some z ∧ z.status = JobStatus.running ∧
        (∃ r, z.runId = some r) ∧ z.depends = [] := by
    intro z hz
    have hz' := List.mem_filter.1 hz
    have hcond := zombie_cond_iff.1 hz'.2
    obtain ⟨hr, hd⟩ := hinv z hz'.1 hcond.1
    exact ⟨lookup_eq_of_mem hN hz'.1, hcond.1, hr, hd⟩
  have hLN : ((s.filter (fun d => d.status == JobStatus.running &&
      match d.expiresAfter with
      | some e => decide (e < now)
      | none => false)).map (fun z => z._id)).Nodup :=
    List.Nodup.sublist (List.Sublist.map _ (List.filter_sublist s)) hN
  obtain ⟨hZ, hO⟩ := failExpired_fold fuel now _ s hN hall hLN
  refine ⟨?_, ?_, ?_⟩
  · intro d hd hzc
    have hdf : d ∈ s.filter (fun d => d.status == JobStatus.running &&
        match d.expiresAfter with
        | some e => decide (e < now)
        | none => false) := List.mem_filter.2 ⟨hd, zombie_cond_iff.2 hzc⟩
    exact hZ d hdf
  · intro d hd hnzc
    have hne : ∀ z ∈ s.filter (fun d => d.status == JobStatus.running &&
        match d.expiresAfter with
        | some e => decide (e < now)
        | none => false), z._id ≠ d._id := by
      intro z hz heq
      have hz' := List.mem_filter.1 hz
      have hzd : z = d := List.inj_on_of_nodup_map hN hz'.1 hd heq
      exact hnzc (hzd ▸ zombie_cond_iff.1 hz'.2)
    exact hO d._id d (lookup_eq_of_mem hN hd) hne
  · intro i d1 hlk1
    have hP := jobReady_lookup [] false none now (failExpired fuel now s) i
    rw [hlk1, Option.map_some'] at hP
    constructor
    · intro hcond
      have hq := readyQ_iff.2 hcond
      rw [if_pos hq] at hP
      exact ⟨_, hP, rfl⟩
    · intro hn
      rw [if_neg (fun hq => hn (readyQ_iff.1 hq))] at hP
      exact hP

/-- C8 witness: a due, dependency-free waiting job is promoted by a
sweep over a store with no expired running jobs. -/
theorem promotion_sweeper_witness :
    ∃ d2, Store.lookup (promoteJobs false 2 5 [mkDoc 1 .waiting none]) 1 = some d2 ∧
      d2.status = JobStatus.ready :=
  (((promotion_sweeper 2 5 [mkDoc 1 .waiting none] (by decide)
      (by
        intro d hd hst
        rw [List.mem_singleton] at hd
        subst hd
        exact absurd hst (by decide))).2.2
    1 (mkDoc 1 .waiting none) rfl).1 ⟨rfl, by decide, rfl⟩)

/-- Updates keep the store size. -/
theorem updateWhere_length (q : JobDoc → Bool) (f : JobDoc → JobDoc) (s : Store) :
    ((updateWhere q f s).1).length = s.length := by
  simp [updateWhere]

/-- `jobReady` keeps the store size. -/
theorem jobReady_length (ids : List JobId) (force : Bool) (time? : Option Time)
    (now : Time) (s : Store) : ((jobReady ids force time? now s).1).length = s.length := by
  simp only [jobReady]
  exact updateWhere_length _ _ s

/-- `_rerun_job` grows the store by exactly one document. -/
theorem rerunJob_length (doc : JobDoc) (repeats : Int) (wait : RepeatWait)
    (ru : Time) (now : Time) (s : Store) :
    ((rerunJob doc repeats wait ru now s).1).length = s.length + 1 := by
  simp only [rerunJob, insertDoc]
  rw [jobReady_length]
  simp

/-- Dependency resolution keeps the store size. -/
theorem resolveDeps_length (id : JobId) (delayDeps : Option Int) (now : Time) (s1 : Store) :
    (resolveDeps id delayDeps now s1).length = s1.length := by
  simp only [resolveDeps]
  by_cases hids : ((s1.filter (fun d => d.depends.contains id)).map
      (fun d => d._id)).isEmpty = true
  · rw [if_pos hids]
  · rw [if_neg hids, jobReady_length, updateWhere_length]

/-- C4: on a successful `jobDone` of a job with `repeats > 0`: for a
fixed numeric `repeatWait` a recurrence is inserted iff
`repeatUntil - repeatWait ≥ now`; for a schedule the next occurrence is
chosen, except that an occurrence within 500 time-units of now is
skipped in favor of the following one when there is one, and the
recurrence is inserted iff the chosen occurrence still lies inside
`repeatUntil`. -/
theorem done_recurrence (rid : JobId) (result : String) (delayDeps : Option Int)
    (now : Time) (s : Store) (d : JobDoc)
    (hN : (s.map (fun x => x._id)).Nodup) (hd : d ∈ s)
    (hrun : d.runId = some rid) (hst : d.status = JobStatus.running)
    (hrep : 0 < d.repeats) :
    (jobDone d._id rid result delayDeps now s).2.2 = true ∧
    (∀ w, d.repeatWait = RepeatWait.wait w →
      ((jobDone d._id rid result delayDeps now s).1).length =
        s.length + (if now ≤ d.repeatUntil - w then 1 else 0)) ∧
    (∀ sn, d.repeatWait = RepeatWait.schedule sn [] →
      ((jobDone d._id rid result delayDeps now s).1).length = s.length) ∧
    (∀ sn d0 rest, d.repeatWait = RepeatWait.schedule sn (d0 :: rest) →
      ((jobDone d._id rid result delayDeps now s).1).length =
        s.length + (if (if d0 - now ≤ 500 ∧ ¬rest.isEmpty then rest.headD d0 else d0)
            ≤ d.repeatUntil then 1 else 0)) := by
  have hq : (d._id == d._id && d.runId == some rid && d.status == JobStatus.running)
      = true := by simp [hrun, hst]
  have hqid : ∀ x ∈ s, (x._id == d._id && x.runId == some rid &&
      x.status == JobStatus.running) = true → x._id = d._id := by
    intro x _ hqx
    simp only [Bool.and_eq_true, beq_iff_eq] at hqx
    exact hqx.1.1
  have hfind : s.find? (fun x => x._id == d._id && x.runId == some rid &&
      x.status == JobStatus.running) = some d := find?_by_id_eq hN hd hq hqid
  have hfil : s.filter (fun x => x._id == d._id && x.runId == some rid &&
      x.status == JobStatus.running) = [d] := filter_by_id_eq hN hd hq hqid
  have hnum : ∀ f : JobDoc → JobDoc,
      (updateWhere (fun x => x._id == d._id && x.runId == some rid &&
        x.status == JobStatus.running) f s).2 = 1 := by
    intro f
    simp only [updateWhere, hfil, List.length_cons, List.length_nil]
  simp only [jobDone, hfind]
  rw [if_pos (hnum _)]
  refine ⟨rfl, ?_, ?_, ?_⟩
  · intro w hw
    simp only [hw]
    rw [if_pos hrep]
    by_cases hc : now ≤ d.repeatUntil - w
    · rw [if_pos hc]
      rw [if_pos hc]
      simp [resolveDeps_length, rerunJob_length, updateWhere_length]
    · rw [if_neg hc]
      rw [if_neg hc]
      simp [resolveDeps_length, updateWhere_length]
  · intro sn hw
    simp only [hw]
    rw [if_pos hrep]
    simp [resolveDeps_length, updateWhere_length]
  · intro sn d0 rest hw
    simp only [hw]
    rw [if_pos hrep]
    generalize (if d0 - now ≤ 500 ∧ ¬rest.isEmpty then rest.headD d0 else d0) = dch
    by_cases hc : now ≤ d.repeatUntil - (dch - now)
    · rw [if_pos hc]
      rw [if_pos (show dch ≤ d.repeatUntil by linarith)]
      simp [resolveDeps_length, rerunJob_length, updateWhere_length]
    · rw [if_neg hc]
      rw [if_neg (show ¬(dch ≤ d.repeatUntil) by intro h; exact hc (by linarith))]
      simp [resolveDeps_length, updateWhere_length]

/-- C4 witness: completing a concrete repeating job inserts one
recurrence when the fixed wait fits inside `repeatUntil`. -/
theorem done_recurrence_witness :
    ((jobDone 1 7 "ok" none 5 [repeatDocW]).1).length =
      ([repeatDocW] : Store).length + (if (5 : Time) ≤ 100 - 10 then 1 else 0) :=
  (done_recurrence 7 "ok" none 5 _ repeatDocW
    (by decide) (by simp) rfl rfl (by decide)).2.1 10 rfl

/-- C3: when `jobFail`'s precondition holds, the computed retry time is
`now + retryWait` under constant backoff and
`now + retryWait * 2 ^ (retried - 1)` under exponential backoff, and the
new status is `waiting` iff the failure is not fatal, `retries > 0` and
`retryUntil` is at or after that time, else `failed`. -/
theorem fail_retry_computation (fuel : Nat) (id rid : JobId) (err : String) (fatal : Bool)
    (now : Time) (s : Store) (d : JobDoc)
    (hN : (s.map (fun x => x._id)).Nodup) (hd : d ∈ s) (hid : d._id = id)
    (hrun : d.runId = some rid) (hst : d.status = JobStatus.running)
    (_hre : 1 ≤ d.retried) :
    (jobFail fuel id rid err fatal now s).2 = true ∧
    ∃ d', Store.lookup (jobFail fuel id rid err fatal now s).1 id = some d' ∧
      d'.after = (if d.retryBackoff = RetryBackoff.exponential then
          now + d.retryWait * 2 ^ (d.retried - 1).toNat
        else now + d.retryWait) ∧
      (d'.status = JobStatus.waiting ↔
        (fatal = false ∧ 0 < d.retries ∧ d'.after ≤ d.retryUntil)) ∧
      (d'.status = JobStatus.waiting ∨ d'.status = JobStatus.failed) := by
  subst hid
  have hq : (d._id == d._id && d.runId == some rid && d.status == JobStatus.running)
      = true := by simp [hrun, hst]
  have hqid : ∀ x ∈ s, (x._id == d._id && x.runId == some rid &&
      x.status == JobStatus.running) = true → x._id = d._id := by
    intro x _ hqx
    simp only [Bool.and_eq_true, beq_iff_eq] at hqx
    exact hqx.1.1
  have hfind : s.find? (fun x => x._id == d._id && x.runId == some rid &&
      x.status == JobStatus.running) = some d := find?_by_id_eq hN hd hq hqid
  have hfil : s.filter (fun x => x._id == d._id && x.runId == some rid &&
      x.status == JobStatus.running) = [d] := filter_by_id_eq hN hd hq hqid
  have hlk : Store.lookup s d._id = some d := lookup_eq_of_mem hN hd
  -- fix the computed quantities
  have hnum : ∀ (ns : JobStatus) (af : Time),
      (updateWhere (fun x => x._id == d._id && x.runId == some rid &&
        x.status == JobStatus.running) (failMods ns af rid err now) s).2 = 1 := by
    intro ns af
    simp only [updateWhere, hfil, List.length_cons, List.length_nil]
  have hlk1 : ∀ (ns : JobStatus) (af : Time),
      Store.lookup (updateWhere (fun x => x._id == d._id && x.runId == some rid &&
        x.status == JobStatus.running) (failMods ns af rid err now) s).1 d._id =
      some (failMods ns af rid err now d) := by
    intro ns af
    rw [lookup_updateWhere (fun x => x._id == d._id && x.runId == some rid &&
      x.status == JobStatus.running) (failMods ns af rid err now) s d._id
      (fun x => rfl), hlk]
    simp [Option.map_some', hrun, hst]
  have hafter : (failMods (if !fatal && decide (0 < d.retries) &&
        decide (failRetryTime now d ≤ d.retryUntil) then JobStatus.waiting
        else JobStatus.failed) (failRetryTime now d) rid err now d).after =
      (if d.retryBackoff = RetryBackoff.exponential then
        now + d.retryWait * 2 ^ (d.retried - 1).toNat
      else now + d.retryWait) := by
    show failRetryTime now d = _
    simp only [failRetryTime, beq_iff_eq]
  simp only [jobFail, hfind]
  refine ⟨by rw [hnum]; rfl, ?_⟩
  by_cases hcond : (!fatal && decide (0 < d.retries) &&
      decide (failRetryTime now d ≤ d.retryUntil)) = true
  · -- retry: new status is waiting, no cascade
    rw [if_pos hcond] at hafter ⊢
    rw [if_neg (by rintro ⟨h, -⟩; cases h)]
    refine ⟨_, hlk1 _ _, hafter, ?_, Or.inl rfl⟩
    simp only [Bool.and_eq_true, Bool.not_eq_true', decide_eq_true_eq] at hcond
    constructor
    · intro _
      exact ⟨hcond.1.1, hcond.1.2, hcond.2⟩
    · intro _
      rfl
  · rw [if_neg hcond] at hafter ⊢
    rw [if_pos ⟨rfl, hnum _ _⟩]
    refine ⟨_, ?_, hafter, ?_, Or.inr rfl⟩
    · refine cancelFold_lookup_noncancellable ?_ fuel now _ _ (hlk1 _ _)
      rfl
    · simp only [Bool.and_eq_true, Bool.not_eq_true', decide_eq_true_eq] at hcond
      constructor
      · intro hco
        cases hco
      · rintro ⟨h1, h2, h3⟩
        refine absurd ?_ hcond
        refine ⟨⟨h1, h2⟩, ?_⟩
        · show failRetryTime now d ≤ d.retryUntil
          exact h3

/-- C3 witness: failing a concrete running job succeeds. -/
theorem fail_retry_computation_witness :
    (jobFail 3 1 7 "boom" false 50 [{ mkDoc 1 .running (some 7) with retried := 1 }]).2
      = true :=
  (fail_retry_computation 3 1 7 "boom" false 50 _
    { mkDoc 1 .running (some 7) with retried := 1 }
    (by decide) (by simp) rfl rfl rfl (by decide)).1

/-! ## The run-id/status relation over operation sequences (C2) -/

/-- Establish `docInv` for a document with no run id outside
`running`/`completed`. -/
theorem docInv_of_none {d : JobDoc} (hr : d.runId = none)
    (h1 : d.status ≠ JobStatus.running) (h2 : d.status ≠ JobStatus.completed) :
    docInv d := by
  refine ⟨fun hn => absurd hr hn, fun hor => ?_⟩
  rcases hor with h | h
  · exact absurd h h1
  · exact absurd h h2

/-- Read the run id off a `docInv` document outside `running`/`completed`. -/
theorem docInv_runId_none {d : JobDoc} (h : docInv d)
    (h1 : d.status ≠ JobStatus.running) (h2 : d.status ≠ JobStatus.completed) :
    d.runId = none := by
  by_contra hn
  rcases h.1 hn with h' | h'
  · exact h1 h'
  · exact h2 h'

/-- `updateWhere` preserves the invariant whenever the mutation preserves
`docInv` on matching documents. -/
theorem inv_updateWhere {q : JobDoc → Bool} {f : JobDoc → JobDoc} {s : Store}
    (h : runIdStatusInv s)
    (hf : ∀ d ∈ s, q d = true → docInv d → docInv (f d)) :
    runIdStatusInv (updateWhere q f s).1 := by
  intro x hx
  simp only [updateWhere, List.mem_map] at hx
  obtain ⟨d, hd, rfl⟩ := hx
  by_cases hq : q d = true
  · rw [if_pos hq]
    exact hf d hd hq (h d hd)
  · rw [if_neg hq]
    exact h d hd

/-- A fold whose step preserves the invariant preserves the invariant. -/
theorem inv_foldl {α : Type} (g : Store → α → Store)
    (hg : ∀ a s, runIdStatusInv s → runIdStatusInv (g s a)) :
    ∀ (l : List α) (s : Store), runIdStatusInv s → runIdStatusInv (l.foldl g s) := by
  intro l
  induction l with
  | nil => exact fun s h => h
  | cons a as ih => exact fun s h => ih _ (hg a s h)

/-- Inserting a `docInv` document preserves the invariant (the fresh id
does not affect the relation). -/
theorem inv_insertDoc {s : Store} {d : JobDoc} (h : runIdStatusInv s) (hd : docInv d) :
    runIdStatusInv (insertDoc s d).1 := by
  intro x hx
  rcases List.mem_append.1 hx with h1 | h2
  · exact h x h1
  · rw [List.mem_singleton] at h2
    subst h2
    exact hd

/-- `jobLog` touches only `log`, `updated` and `expiresAfter`. -/
theorem inv_jobLog (id : JobId) (rid : Option JobId) (m : String) (lv : LogLevel)
    (now : Time) (s : Store) (h : runIdStatusInv s) :
    runIdStatusInv (jobLog id rid m lv now s).1 := by
  refine inv_updateWhere h ?_
  intro d _ _ hd
  simpa [docInv] using hd

/-- `jobReady` promotes only `waiting` documents (whose run id is null by
the invariant) and leaves the run id null. -/
theorem inv_jobReady (ids : List JobId) (force : Bool) (time? : Option Time) (now : Time)
    (s : Store) (h : runIdStatusInv s) :
    runIdStatusInv (jobReady ids force time? now s).1 := by
  refine inv_updateWhere h ?_
  intro d _ hq hd
  simp only [Bool.and_eq_true, beq_iff_eq] at hq
  have hstat : d.status = JobStatus.waiting := hq.1.1.1
  have hr : d.runId = none := docInv_runId_none hd
    (by rw [hstat]; decide) (by rw [hstat]; decide)
  simp [docInv, hr]

/-- `jobPause` pauses only `ready`/`waiting` documents. -/
theorem inv_jobPause (ids : List JobId) (now : Time) (s : Store) (h : runIdStatusInv s) :
    runIdStatusInv (jobPause ids now s).1 := by
  unfold jobPause
  by_cases hids : ids.isEmpty = true
  · rw [if_pos hids]
    exact h
  · rw [if_neg hids]
    dsimp only
    refine inv_updateWhere h ?_
    intro d _ hq hd
    simp only [Bool.and_eq_true] at hq
    have hmem : d.status = JobStatus.ready ∨ d.status = JobStatus.waiting := by
      have h2 := hq.2
      rw [contains_iff_mem] at h2
      simpa [jobStatusPausable] using h2
    have hr : d.runId = none := docInv_runId_none hd
      (by rcases hmem with h' | h' <;> rw [h'] <;> decide)
      (by rcases hmem with h' | h' <;> rw [h'] <;> decide)
    simp [docInv, hr]

/-- `jobResume` resumes only `paused` documents, then promotes. -/
theorem inv_jobResume (ids : List JobId) (now : Time) (s : Store) (h : runIdStatusInv s) :
    runIdStatusInv (jobResume ids now s).1 := by
  have hf : ∀ d ∈ s,
      (ids.contains d._id && d.status == JobStatus.paused && d.updated != now) = true →
      docInv d → docInv { d with status := JobStatus.waiting, updated := now, log := d.log ++ [logResumed now] } := by
    intro d _ hq hd
    simp only [Bool.and_eq_true, beq_iff_eq] at hq
    have hr : d.runId = none := docInv_runId_none hd
      (by rw [hq.1.2]; decide) (by rw [hq.1.2]; decide)
    simp [docInv, hr]
  unfold jobResume
  by_cases hids : ids.isEmpty = true
  · rw [if_pos hids]
    exact h
  · rw [if_neg hids]
    dsimp only
    split
    · exact inv_jobReady _ _ _ _ _ (inv_updateWhere h hf)
    · exact inv_updateWhere h hf

/-- The claim update marks matched documents `running` with the run id
set, so the relation holds on them outright. -/
theorem inv_claimUpdate (ids : List JobId) (rid : JobId) (wt : Option Int) (now : Time)
    (s : Store) (h : runIdStatusInv s) :
    runIdStatusInv (claimUpdate ids rid wt now s).1 := by
  refine inv_updateWhere h ?_
  intro d _ _ _
  simp [docInv, claimMods]

/-- Every iteration of the claim loop only claim-updates the store. -/
theorem inv_getWorkLoop (types : List String) (rid : JobId) (wt : Option Int) (now : Time)
    (maxJobs : Nat) : ∀ (fuel : Nat) (s : Store) (docs : List JobDoc),
    runIdStatusInv s →
    runIdStatusInv (getWorkLoop types rid wt now maxJobs fuel s docs).1 := by
  intro fuel
  induction fuel with
  | zero => intro s docs h; exact h
  | succ n ih =>
    intro s docs h
    unfold getWorkLoop
    dsimp only
    repeat' split
    all_goals first
      | exact h
      | exact ih _ _ (inv_claimUpdate _ _ _ _ _ h)

/-- `getWork` preserves the relation. -/
theorem inv_getWork (types : List String) (maxJobs : Nat) (rid : JobId) (wt : Option Int)
    (now : Time) (s : Store) (h : runIdStatusInv s) :
    runIdStatusInv (getWork types maxJobs rid wt now s).1 :=
  inv_getWorkLoop types rid wt now maxJobs maxJobs s [] h

/-- A two-way case split for invariant stores. -/
theorem inv_ite {c : Prop} [Decidable c] {a b : Store} (ha : runIdStatusInv a)
    (hb : runIdStatusInv b) : runIdStatusInv (if c then a else b) := by
  split
  · exact ha
  · exact hb

/-- `jobCancel` cancels only cancellable documents, clearing their run
id. -/
theorem inv_jobCancel (antecedents dependents : Bool) (now : Time) :
    ∀ (fuel : Nat) (ids : List JobId) (s : Store), runIdStatusInv s →
    runIdStatusInv (jobCancel fuel ids antecedents dependents now s).1 := by
  intro fuel
  induction fuel with
  | zero => intro ids s h; exact h
  | succ n ih =>
    intro ids s h
    unfold jobCancel
    dsimp only
    repeat' split
    all_goals first
      | exact h
      | exact inv_updateWhere h (fun d _ _ _ => by simp [docInv, cancelMods])
      | exact ih _ _ (inv_updateWhere h (fun d _ _ _ => by simp [docInv, cancelMods]))

/-- A fold of single-id cancels preserves the invariant. -/
theorem inv_cancelFold (fuel : Nat) (now : Time) (l : List JobDoc) (s : Store)
    (h : runIdStatusInv s) :
    runIdStatusInv (l.foldl (fun st x => (jobCancel fuel [x._id] false true now st).1) s) :=
  inv_foldl _ (fun a t ht => inv_jobCancel false true now fuel [a._id] t ht) l s h

/-- `jobFail` moves its target to `waiting` or `failed` with the run id
cleared, then possibly cancels dependents. -/
theorem inv_jobFail (fuel : Nat) (id rid : JobId) (err : String) (fatal : Bool) (now : Time)
    (s : Store) (h : runIdStatusInv s) :
    runIdStatusInv (jobFail fuel id rid err fatal now s).1 := by
  unfold jobFail
  cases hfind : s.find? (fun d => d._id == id && d.runId == some rid &&
      d.status == JobStatus.running) with
  | none => exact h
  | some doc =>
    dsimp only
    have hu : ∀ ns : JobStatus, ns = JobStatus.waiting ∨ ns = JobStatus.failed →
        ∀ af : Time, runIdStatusInv (updateWhere (fun d => d._id == id &&
          d.runId == some rid && d.status == JobStatus.running)
          (failMods ns af rid err now) s).1 := by
      intro ns hns af
      refine inv_updateWhere h ?_
      intro d _ _ _
      rcases hns with rfl | rfl <;> simp [docInv, failMods]
    repeat' split
    all_goals first
      | exact hu JobStatus.waiting (Or.inl rfl) _
      | exact hu JobStatus.failed (Or.inr rfl) _
      | exact inv_cancelFold fuel now _ _ (hu JobStatus.waiting (Or.inl rfl) _)
      | exact inv_cancelFold fuel now _ _ (hu JobStatus.failed (Or.inr rfl) _)

/-- `_rerun_job` inserts a fresh `waiting` clone with no run id. -/
theorem inv_rerunJob (doc : JobDoc) (repeats : Int) (wait : RepeatWait) (ru now : Time)
    (s : Store) (h : runIdStatusInv s) :
    runIdStatusInv (rerunJob doc repeats wait ru now s).1 := by
  unfold rerunJob
  dsimp only
  refine inv_jobReady _ _ _ _ _ (inv_insertDoc h ?_)
  simp [docInv]

/-- Dependency resolution touches only `depends`/`resolved`/`after`/`log`
and promotes. -/
theorem inv_resolveDeps (id : JobId) (delayDeps : Option Int) (now : Time) (s1 : Store)
    (h : runIdStatusInv s1) : runIdStatusInv (resolveDeps id delayDeps now s1) := by
  unfold resolveDeps
  dsimp only
  split
  · exact h
  · refine inv_jobReady _ _ _ _ _ (inv_updateWhere h ?_)
    intro d _ _ hd
    simpa [docInv] using hd

/-- The dependency check of `jobSave` logs, resolves and possibly
cancels — all invariant-preserving. -/
theorem inv_checkDeps (fuel : Nat) (job : JobDoc) (now : Time) (s : Store)
    (h : runIdStatusInv s) : runIdStatusInv (checkDeps fuel job now s).1 := by
  have h1 : ∀ (l : List JobId) (t : Store), runIdStatusInv t → runIdStatusInv
      (l.foldl (fun st j => (jobLog job._id none
        ("Antecedent job " ++ toString j ++ " missing at save")
        LogLevel.info now st).1) t) :=
    fun l t ht => inv_foldl _ (fun a u hu => inv_jobLog _ _ _ _ _ _ hu) l t ht
  have h2 : ∀ (l : List JobDoc) (t : Store), runIdStatusInv t → runIdStatusInv
      (l.foldl (fun st dp => if dp.status == JobStatus.failed then
          (jobLog job._id none "Antecedent job failed before save" LogLevel.info now st).1
        else if dp.status == JobStatus.cancelled then
          (jobLog job._id none "Antecedent job cancelled before save" LogLevel.info now st).1
        else st) t) := by
    intro l t ht
    refine inv_foldl _ ?_ l t ht
    intro a u hu
    split
    · exact inv_jobLog _ _ _ _ _ _ hu
    · split
      · exact inv_jobLog _ _ _ _ _ _ hu
      · exact hu
  unfold checkDeps
  dsimp only
  split
  · exact h
  · repeat'
      first
      | exact h
      | refine inv_ite ?_ ?_
      | refine h1 _ _ ?_
      | refine h2 _ _ ?_
      | refine inv_jobCancel _ _ _ _ _ _ ?_
      | refine inv_updateWhere ?_ (fun d hdm hq hd => by simpa [docInv] using hd)

/-- `jobRestart` restarts only `cancelled`/`failed` documents (whose run
id is already null) back to `waiting`. -/
theorem inv_jobRestart (retries : Int) (untilT : Option Time) (antecedents dependents : Bool)
    (now : Time) : ∀ (fuel : Nat) (ids : List JobId) (s : Store), runIdStatusInv s →
    runIdStatusInv (jobRestart fuel ids retries untilT antecedents dependents now s).1 := by
  intro fuel
  induction fuel with
  | zero => intro ids s h; exact h
  | succ n ih =>
    intro ids s h
    have hu : ∀ t : Store, runIdStatusInv t → runIdStatusInv (updateWhere
        (fun d => ids.contains d._id && jobStatusRestartable.contains d.status)
        (fun d => { d with status := JobStatus.waiting, progress := ⟨0, 1, 0⟩, updated := now, retries := d.retries + min retries forever, retryUntil := untilT.getD d.retryUntil, log := d.log ++ [logRestarted now] }) t).1 := by
      intro t ht
      refine inv_updateWhere ht ?_
      intro d _ hq hd
      simp only [Bool.and_eq_true] at hq
      have hmem : d.status = JobStatus.cancelled ∨ d.status = JobStatus.failed := by
        have h2 := hq.2
        rw [contains_iff_mem] at h2
        simpa [jobStatusRestartable] using h2
      have hr : d.runId = none := docInv_runId_none hd
        (by rcases hmem with h' | h' <;> rw [h'] <;> decide)
        (by rcases hmem with h' | h' <;> rw [h'] <;> decide)
      simp [docInv, hr]
    unfold jobRestart
    dsimp only
    repeat' split
    all_goals first
      | exact h
      | exact hu _ h
      | exact inv_jobReady _ _ _ _ _ (hu _ h)
      | exact inv_jobReady _ _ _ _ _ (ih _ _ (hu _ h))
      | exact ih _ _ (hu _ h)

set_option maxHeartbeats 1600000 in
/-- `jobDone` completes the target without clearing its run id — both
sides of the (corrected) relation stay true on it — then reruns and
resolves. -/
theorem inv_jobDone (id rid : JobId) (result : String) (dd : Option Int) (now : Time)
    (s : Store) (h : runIdStatusInv s) :
    runIdStatusInv (jobDone id rid result dd now s).1 := by
  unfold jobDone
  cases hfind : s.find? (fun d => d._id == id && d.runId == some rid &&
      d.status == JobStatus.running) with
  | none => exact h
  | some doc =>
    dsimp only
    have hu : ∀ pr : Progress, runIdStatusInv (updateWhere (fun d => d._id == id && d.runId == some rid && d.status == JobStatus.running) (fun d => { d with status := JobStatus.completed, result := some result, progress := pr, updated := now, log := d.log ++ [logCompleted now rid] }) s).1 := by
      intro pr
      refine inv_updateWhere h ?_
      intro d _ hq _
      simp only [Bool.and_eq_true, beq_iff_eq] at hq
      simp [docInv, hq.1.2]
    repeat' split
    all_goals dsimp only
    repeat'
      first
      | exact h
      | exact hu _
      | refine inv_resolveDeps _ _ _ _ ?_
      | refine inv_rerunJob _ _ _ _ _ _ ?_

/-- `jobSave` of a document with a null run id: the insert path stores a
`waiting`/`paused` document with no run id; the update path rewrites a
`paused`, unclaimed document back to `waiting`; the dependency check,
repeat-cancellation and promotion steps all preserve the relation. -/
theorem inv_jobSave (fuel : Nat) (doc0 : JobDoc) (hasId cancelRepeats : Bool) (now : Time)
    (s : Store) (hclean : doc0.runId = none) (h : runIdStatusInv s) :
    runIdStatusInv (jobSave fuel doc0 hasId cancelRepeats now s).1 := by
  unfold jobSave
  by_cases hok : (doc0.status == JobStatus.waiting || doc0.status == JobStatus.paused) = true
  · rw [if_neg (by simp [hok])]
    have hstat : doc0.status = JobStatus.waiting ∨ doc0.status = JobStatus.paused := by
      have h' := hok
      simp only [Bool.or_eq_true, beq_iff_eq] at h'
      exact h'
    have hdocnew : ∀ p : JobDoc, p.runId = doc0.runId → p.status = doc0.status →
        docInv p := by
      intro p hr hs
      refine docInv_of_none (hr.trans hclean) ?_ ?_
      · rw [hs]
        rcases hstat with h' | h' <;> rw [h'] <;> decide
      · rw [hs]
        rcases hstat with h' | h' <;> rw [h'] <;> decide
    dsimp only
    rcases hrw : doc0.repeatWait with w | ⟨sn, nexts⟩
    · simp only [hrw]
      repeat' split
      repeat'
        first
        | exact h
        | exact hdocnew _ rfl rfl
        | refine inv_jobReady _ _ _ _ _ ?_
        | refine inv_checkDeps _ _ _ _ ?_
        | refine inv_insertDoc ?_ ?_
        | refine inv_ite ?_ ?_
        | refine inv_cancelFold _ _ _ _ ?_
        | refine inv_updateWhere h (fun d hdm hq hd => by
            simp only [Bool.and_eq_true, beq_iff_eq] at hq
            simp [docInv, hq.2])
    · rcases sn with _ | nxt
      · simp only [hrw]
        exact h
      · simp only [hrw]
        by_cases hcond : max doc0.repeatUntil now < nxt
        · simp only [if_pos hcond]
          exact h
        · simp only [if_neg hcond]
          repeat' split
          repeat'
            first
            | exact h
            | exact hdocnew _ rfl rfl
            | refine inv_jobReady _ _ _ _ _ ?_
            | refine inv_checkDeps _ _ _ _ ?_
            | refine inv_insertDoc ?_ ?_
            | refine inv_ite ?_ ?_
            | refine inv_cancelFold _ _ _ _ ?_
            | refine inv_updateWhere h (fun d hdm hq hd => by
                simp only [Bool.and_eq_true, beq_iff_eq] at hq
                simp [docInv, hq.2])
  · have hx : (doc0.status == JobStatus.waiting || doc0.status == JobStatus.paused) = false :=
      Bool.eq_false_iff.2 hok
    rw [if_pos (show (!(doc0.status == JobStatus.waiting ||
        doc0.status == JobStatus.paused)) = true by rw [hx]; rfl)]
    exact h

/-- Every state-machine operation preserves the corrected relation
(saves must carry a null run id, as the `Job` builder guarantees). -/
theorem inv_op (op : Op) (hop : op.savesClean = true) (s : Store) (h : runIdStatusInv s) :
    runIdStatusInv (Op.apply s op) := by
  cases op with
  | save doc hasId cr now =>
    exact inv_jobSave _ _ _ _ _ _ (by simpa [Op.savesClean, beq_iff_eq] using hop) h
  | getwork types maxJobs rid wt now => exact inv_getWork _ _ _ _ _ _ h
  | done id rid result dd now => exact inv_jobDone _ _ _ _ _ _ h
  | fail id rid err fatal now => exact inv_jobFail _ _ _ _ _ _ _ h
  | cancel ids a dp now => exact inv_jobCancel _ _ _ _ _ _ h
  | restart ids r u a dp now => exact inv_jobRestart _ _ _ _ _ _ _ _ h
  | pause ids now => exact inv_jobPause _ _ _ h
  | resume ids now => exact inv_jobResume _ _ _ h
  | ready ids f t now => exact inv_jobReady _ _ _ _ _ h

/-- Operation sequences preserve the corrected relation. -/
theorem inv_applyOps : ∀ (ops : List Op) (s : Store),
    (∀ op ∈ ops, op.savesClean = true) → runIdStatusInv s →
    runIdStatusInv (applyOps ops s) := by
  intro ops
  induction ops with
  | nil => intro s _ h; exact h
  | cons op rest ih =>
    intro s hwf h
    exact ih _ (fun o ho => hwf o (List.mem_cons_of_mem _ ho))
      (inv_op op (hwf op (List.mem_cons_self _ _)) s h)

/-- `findReady` on the singleton post-save store. -/
theorem findReady_trace : findReady ["work"] [traceDoc1] = [traceDoc1] := by
  show List.mergeSort [traceDoc1] _ = [traceDoc1]
  simp

/-- The claim phase of `getWork` on the concrete trace store. -/
theorem getwork_trace :
    (getWork ["work"] 1 7 none 0 [traceDoc1]).1 = [traceDoc2] := by
  have hkey : ∀ fuel : Nat,
      (getWorkLoop ["work"] 7 none 0 1 (fuel + 1) [traceDoc1] []).1 = [traceDoc2] := by
    intro fuel
    unfold getWorkLoop
    dsimp only
    rw [findReady_trace]
    show (getWorkLoop ["work"] 7 none 0 1 fuel [traceDoc2] [traceDoc2]).1 = [traceDoc2]
    cases fuel <;> rfl
  exact hkey 0

/-- Saving the default job at time 0 inserts it under id 1 and promotes
it to `ready`. -/
theorem save_trace :
    Op.apply [] (Op.save (mkDoc 0 JobStatus.waiting none) false false 0) = [traceDoc1] :=
  rfl

/-- Completing the claimed job leaves the run id on the completed
document. -/
theorem done_trace :
    Op.apply [traceDoc2] (Op.done 1 7 "ok" none 0) = [traceDoc3] :=
  rfl

/-- C2 (counterexample to the claim as stated): after the reachable
operation sequence save → getWork → jobDone, the store holds a document
whose `runId` is non-null while its status is not `running` (it is
`completed`) — `jobDone` never clears `runId`, so "runId non-null iff
status = running" fails. -/
theorem runId_iff_running_counterexample :
    ∃ d ∈ applyOps
      [Op.save (mkDoc 0 JobStatus.waiting none) false false 0,
       Op.getwork ["work"] 1 7 none 0,
       Op.done 1 7 "ok" none 0] [],
      d.runId ≠ none ∧ d.status ≠ JobStatus.running := by
  have hstore : applyOps
      [Op.save (mkDoc 0 JobStatus.waiting none) false false 0,
       Op.getwork ["work"] 1 7 none 0,
       Op.done 1 7 "ok" none 0] [] = [traceDoc3] := by
    show Op.apply (Op.apply (Op.apply []
      (Op.save (mkDoc 0 JobStatus.waiting none) false false 0))
      (Op.getwork ["work"] 1 7 none 0)) (Op.done 1 7 "ok" none 0) = [traceDoc3]
    rw [save_trace]
    rw [show Op.apply [traceDoc1] (Op.getwork ["work"] 1 7 none 0) = [traceDoc2]
      from getwork_trace]
    exact done_trace
  rw [hstore]
  refine ⟨traceDoc3, List.mem_singleton_self _, ?_, ?_⟩
  · decide
  · decide

/-- C2 (amended): over every sequence of state-machine operations from
the empty store whose save payloads carry a null `runId` (the `Job`
builder always submits `runId: null`), every reachable document
satisfies: `runId` is non-null iff its status is `running` or
`completed`. -/
theorem runId_running_amended (ops : List Op)
    (hwf : ∀ op ∈ ops, op.savesClean = true) :
    ∀ d ∈ applyOps ops [], (d.runId ≠ none ↔
      (d.status = JobStatus.running ∨ d.status = JobStatus.completed)) :=
  inv_applyOps ops [] hwf (fun d hd => absurd hd (List.not_mem_nil d))

/-- C2 witness: the amended relation holds of the document reached by a
concrete single-save trace. -/
theorem runId_running_amended_witness :
    traceDoc1.runId ≠ none ↔
      (traceDoc1.status = JobStatus.running ∨ traceDoc1.status = JobStatus.completed) :=
  runId_running_amended [Op.save (mkDoc 0 JobStatus.waiting none) false false 0]
    (by decide) traceDoc1 (List.mem_singleton_self traceDoc1)

/-- C9: on a dispatched task's completion callback, a second invocation
reports an error through `errorCallback` and, when `callbackStrict` is
set, additionally throws a fatal error (skipping the inner callback);
the first invocation never triggers the error path. -/
theorem callback_double_invocation (strict : Bool) :
    ((onlyOnceInvoke strict false).1.errorReported = false ∧
     (onlyOnceInvoke strict false).1.fatalThrown = false ∧
     (onlyOnceInvoke strict false).1.innerCalled = true) ∧
    ((onlyOnceInvoke strict (onlyOnceInvoke strict false).2).1.errorReported = true ∧
     (onlyOnceInvoke strict (onlyOnceInvoke strict false).2).1.fatalThrown = strict ∧
     (onlyOnceInvoke strict (onlyOnceInvoke strict false).2).1.innerCalled = !strict) := by
  cases strict <;> decide

end JobCollection
